import Mathlib

/-!
Verification development for the Smartbot crawl → chunk → embed → retrieve
pipeline (src/app/services/{crawler,chunking,knowledge,rag}.py and
src/app/models/{document,chunk}.py).

Python strings are modelled as `List Char`; Python floats as `ℚ` (`Rat`);
database rows as Lean structures in explicit lists.  External collaborators
(BeautifulSoup, the OpenAI embedding client, `math.sqrt` over IEEE floats,
`urljoin` link resolution) are modelled as abstract data or function
parameters, as the spec directs (its §1/§6 declare them interfaces only).
Each definition carries a comment naming the source construct it embeds.
-/

namespace Smartbot

/-! ### Python string primitives used by `src/app/services/chunking.py` -/

/-- Python whitespace for `str.strip()` / `str.split()` (ASCII subset:
space, tab, newline, carriage return, vertical tab, form feed). -/
def isPyWs (c : Char) : Bool :=
  c == ' ' || c == '\t' || c == '\n' || c == '\r' || c == '\x0b' || c == '\x0c'

/-- Python `str.strip()`: drop whitespace from both ends. -/
def pyStrip (s : List Char) : List Char :=
  ((s.dropWhile isPyWs).reverse.dropWhile isPyWs).reverse

/-- Worker for `pySplitWs`; `cur` holds the reversed current word. -/
def pySplitWsGo (cur : List Char) : List Char → List (List Char)
  | [] => if cur = [] then [] else [cur.reverse]
  | c :: rest =>
    if isPyWs c then
      if cur = [] then pySplitWsGo [] rest
      else cur.reverse :: pySplitWsGo [] rest
    else pySplitWsGo (c :: cur) rest

/-- Python `str.split()` with no argument: split on whitespace runs,
discarding empty pieces. -/
def pySplitWs (s : List Char) : List (List Char) :=
  pySplitWsGo [] s

/-- Tail worker for `joinSp` (everything after the first word). -/
def joinSpRest : List (List Char) → List Char
  | [] => []
  | w :: ws => ' ' :: (w ++ joinSpRest ws)

/-- `" ".join(current)` from the chunker. -/
def joinSp : List (List Char) → List Char
  | [] => []
  | w :: ws => w ++ joinSpRest ws

/-! ### `src/app/services/chunking.py` -/

/-- `c` is one of `.`, `!`, `?` — the sentence-ending characters of
`_SENTENCE_RE = re.compile(r"(?<=[.!?]) +")`. -/
def isSentEnd (c : Char) : Bool :=
  c == '.' || c == '!' || c == '?'

/-- Consume the greedy `" +"` tail of a `_SENTENCE_RE` match. -/
def dropSpaces : List Char → List Char
  | [] => []
  | c :: rest => if c = ' ' then dropSpaces rest else c :: rest

/-- `_SENTENCE_RE.split(s)`, fuel-indexed to stay structurally recursive:
split at every maximal match of `(?<=[.!?]) +`, scanning left to right.
`acc` holds the reversed characters of the piece under construction.
Any `fuel ≥ s.length` yields the regex semantics. -/
def sentenceSplitFuel : Nat → List Char → List Char → List (List Char)
  | 0, acc, _ => [acc.reverse]
  | _ + 1, acc, [] => [acc.reverse]
  | fuel + 1, acc, c :: rest =>
    if isSentEnd c ∧ rest.head? = some ' ' then
      (acc.reverse ++ [c]) :: sentenceSplitFuel fuel [] (dropSpaces rest)
    else
      sentenceSplitFuel fuel (c :: acc) rest

/-- `_SENTENCE_RE.split(s)` from `src/app/services/chunking.py`. -/
def sentenceSplit (s : List Char) : List (List Char) :=
  sentenceSplitFuel s.length [] s

/-- `[s[i:i+n] for i in range(0, len(s), n)]`, fuel-indexed — the
hard-slicing of an over-long token in `_split_unit`.  Any
`fuel ≥ s.length` with `0 < n` yields the Python semantics; for `n = 0`
CPython raises `ValueError` (that case is unreachable under the
`0 < max_chars` hypotheses of the theorems below). -/
def sliceChunksFuel (n : Nat) : Nat → List Char → List (List Char)
  | 0, _ => []
  | _ + 1, [] => []
  | fuel + 1, s => s.take n :: sliceChunksFuel n fuel (s.drop n)

/-- `[s[i:i+n] for i in range(0, len(s), n)]`. -/
def sliceChunks (s : List Char) (n : Nat) : List (List Char) :=
  sliceChunksFuel n s.length s

/-- State of the greedy word-packing loop in `_split_unit`
(`parts`, `current`, `current_len`). -/
structure PackState where
  parts : List (List Char)
  current : List (List Char)
  current_len : Nat
deriving DecidableEq

/-- `parts.append(" ".join(current)) if current else parts` — the flush
performed before an over-long word and at the end of `_split_unit`. -/
def flushCurrent (st : PackState) : List (List Char) :=
  if st.current = [] then st.parts else st.parts ++ [joinSp st.current]

/-- One iteration of the `for word in words` loop of `_split_unit`
(`added = word_len if not current else word_len + 1` is inlined). -/
def splitUnitStep (max_chars : Nat) (st : PackState) (word : List Char) : PackState :=
  if max_chars < word.length then
    { parts := flushCurrent st ++ sliceChunks word max_chars
      current := [], current_len := 0 }
  else if st.current ≠ [] ∧
      max_chars < st.current_len + (if st.current = [] then word.length else word.length + 1) then
    { parts := st.parts ++ [joinSp st.current], current := [word], current_len := word.length }
  else
    { parts := st.parts, current := st.current ++ [word]
      current_len := st.current_len + (if st.current = [] then word.length else word.length + 1) }

/-- `_split_unit(text, max_chars)` from `src/app/services/chunking.py`:
break a long sentence/token into pieces of at most `max_chars`. -/
def _split_unit (text : List Char) (max_chars : Nat) : List (List Char) :=
  if pyStrip text = [] then []
  else if (pyStrip text).length ≤ max_chars then [pyStrip text]
  else if (pySplitWs (pyStrip text)).length ≤ 1 then sliceChunks (pyStrip text) max_chars
  else flushCurrent ((pySplitWs (pyStrip text)).foldl (splitUnitStep max_chars) ⟨[], [], 0⟩)

/-- State of the fragment-accumulation loop of `split_into_chunks`
(`chunks`, `current`, `current_len`). -/
structure ChunkState where
  chunks : List (List Char)
  current : List (List Char)
  current_len : Nat
deriving DecidableEq

/-- One iteration of the `for fragment in _split_unit(...)` loop of
`split_into_chunks`: flush when the fragment would overflow, then append
(the flush-then-append of the source is fused into the two branches). -/
def chunkStep (max_chars : Nat) (st : ChunkState) (fragment : List Char) : ChunkState :=
  if max_chars < st.current_len + fragment.length ∧ st.current ≠ [] then
    { chunks := st.chunks ++ [joinSp st.current], current := [fragment]
      current_len := fragment.length + 1 }
  else
    { chunks := st.chunks, current := st.current ++ [fragment]
      current_len := st.current_len + fragment.length + 1 }

/-- The nested `for sentence / for fragment` loops of `split_into_chunks`. -/
def chunkAccum (max_chars : Nat) (sentences : List (List Char)) : ChunkState :=
  sentences.foldl
    (fun st sentence => (_split_unit sentence max_chars).foldl (chunkStep max_chars) st)
    ⟨[], [], 0⟩

/-- The trailing `if current: chunks.append(" ".join(current))`. -/
def flushChunks (st : ChunkState) : List (List Char) :=
  if st.current = [] then st.chunks else st.chunks ++ [joinSp st.current]

/-- `split_into_chunks(text, max_chars=3500)` from
`src/app/services/chunking.py` (`return chunks or [text]`). -/
def split_into_chunks (text : List Char) (max_chars : Nat) : List (List Char) :=
  if flushChunks (chunkAccum max_chars (sentenceSplit (pyStrip text))) = [] then [text]
  else flushChunks (chunkAccum max_chars (sentenceSplit (pyStrip text)))

/-- Invariant of the word-packing loop of `_split_unit`. -/
def PackInv (m : Nat) (st : PackState) : Prop :=
  (∀ p ∈ st.parts, p.length ≤ m) ∧
  (st.current = [] → st.current_len = 0) ∧
  (st.current ≠ [] → st.current_len = (joinSp st.current).length ∧ st.current_len ≤ m)

/-- Invariant of the fragment-accumulation loop of `split_into_chunks`. -/
def ChunkInv (m : Nat) (st : ChunkState) : Prop :=
  (∀ c ∈ st.chunks, c.length ≤ m) ∧
  (st.current = [] → st.current_len = 0) ∧
  (st.current ≠ [] →
    st.current_len = (joinSp st.current).length + 1 ∧ (joinSp st.current).length ≤ m)

/-! ### `urllib.parse` model for `normalize_url` / `same_domain`
(`src/app/services/crawler.py`)

The model follows CPython 3.11's `urlsplit`/`urlparse`/`urlunsplit`/
`urlunparse` (Lib/urllib/parse.py): the WHATWG strip of leading
C0-control/space characters, removal of the unsafe bytes tab/CR/LF,
scheme extraction before the first `:`, netloc after a leading `//` up to
the first `/?#`, fragment split at the first `#`, query split at the
first `?`, the params split of `urlparse` at the last path segment, and
`urlunsplit`'s re-addition of `//` when there is a netloc or the scheme
is in `uses_netloc`.  The bracketed-host/netloc `ValueError` validations
are not modelled (no claim here involves brackets or non-ASCII hosts). -/

/-- `_WHATWG_C0_CONTROL_OR_SPACE`: code points `0x00`–`0x20`. -/
def isC0OrSpace (c : Char) : Bool :=
  c.toNat ≤ 0x20

/-- `_UNSAFE_URL_BYTES_TO_REMOVE = ["\t", "\r", "\n"]`. -/
def isUnsafeUrlByte (c : Char) : Bool :=
  c == '\t' || c == '\r' || c == '\n'

/-- The cleaning performed at the top of `urlsplit`:
`url.lstrip(_WHATWG_C0_CONTROL_OR_SPACE)` then removal of the unsafe
bytes. -/
def pyCleanUrl (url : List Char) : List Char :=
  (url.dropWhile isC0OrSpace).filter (fun c => !isUnsafeUrlByte c)

/-- `uses_netloc` from `urllib.parse` (the schemes for which `urlunsplit`
re-adds `//`); the empty string entry is irrelevant under the
`scheme` truthiness guard. -/
def usesNetloc : List (List Char) :=
  [[], "ftp".toList, "http".toList, "gopher".toList, "nntp".toList, "telnet".toList,
    "imap".toList, "wais".toList, "file".toList, "mms".toList, "https".toList,
    "shttp".toList, "snews".toList, "prospero".toList, "rtsp".toList, "rtsps".toList,
    "rtspu".toList, "rsync".toList, "svn".toList, "svn+ssh".toList, "sftp".toList,
    "nfs".toList, "git".toList, "git+ssh".toList, "ws".toList, "wss".toList]

/-- `scheme_chars` from `urllib.parse` (letters, digits, `+`, `-`, `.`). -/
def isSchemeChar (c : Char) : Bool :=
  c.isAlpha || c.isDigit || c == '+' || c == '-' || c == '.'

/-- `s.split(sep, 1)` when `sep` occurs in `s`: the pieces before and
after the first occurrence. -/
def splitOnFirst? (sep : Char) : List Char → Option (List Char × List Char)
  | [] => none
  | c :: rest =>
    if c = sep then some ([], rest)
    else (splitOnFirst? sep rest).map (fun p => (c :: p.1, p.2))

/-- Split at the last occurrence of `sep` (used by `_splitparams` via
`url.rfind('/')`). -/
def splitOnLast? (sep : Char) (s : List Char) : Option (List Char × List Char) :=
  match splitOnFirst? sep s.reverse with
  | none => none
  | some (a, b) => some (b.reverse, a.reverse)

/-- `url[0].isascii() and url[0].isalpha()` (false on the empty string,
covering urlsplit's `i > 0` guard; Lean's `Char.isAlpha` is ASCII-only,
matching the combination). -/
def headIsAlpha : List Char → Bool
  | [] => false
  | c :: _ => c.isAlpha

/-- The scheme-extraction step of `urlsplit`: the text before the first
`:` is the (lowercased) scheme when it is nonempty, starts with an ASCII
letter, and consists of scheme characters; the returned remainder is the
rest of the URL. -/
def splitScheme (url : List Char) : List Char × List Char :=
  match splitOnFirst? ':' url with
  | none => ([], url)
  | some (before, after) =>
    if headIsAlpha before ∧ before.all isSchemeChar then (before.map Char.toLower, after)
    else ([], url)

/-- The characters terminating a netloc in `_splitnetloc`. -/
def isNetlocDelim (c : Char) : Bool :=
  c == '/' || c == '?' || c == '#'

/-- The netloc-extraction step of `urlsplit` (`if url[:2] == '//'`):
after a leading `//`, the netloc extends to the first of `/?#`. -/
def splitNetloc (url : List Char) : List Char × List Char :=
  if url.take 2 = ['/', '/'] then
    ((url.drop 2).takeWhile (fun c => !isNetlocDelim c),
      (url.drop 2).dropWhile (fun c => !isNetlocDelim c))
  else ([], url)

/-- `if '#' in url: url, fragment = url.split('#', 1)`. -/
def splitFragment (url : List Char) : List Char × List Char :=
  match splitOnFirst? '#' url with
  | none => (url, [])
  | some (a, b) => (a, b)

/-- `if '?' in url: url, query = url.split('?', 1)`. -/
def splitQuery (url : List Char) : List Char × List Char :=
  match splitOnFirst? '?' url with
  | none => (url, [])
  | some (a, b) => (a, b)

/-- The five components returned by `urlsplit`. -/
structure SplitResult where
  scheme : List Char
  netloc : List Char
  path : List Char
  query : List Char
  fragment : List Char
deriving DecidableEq

/-- `urllib.parse.urlsplit` (see the section comment for modelled scope). -/
def urlsplit (url0 : List Char) : SplitResult :=
  ⟨(splitScheme (pyCleanUrl url0)).1,
    (splitNetloc (splitScheme (pyCleanUrl url0)).2).1,
    (splitQuery (splitFragment (splitNetloc (splitScheme (pyCleanUrl url0)).2).2).1).1,
    (splitQuery (splitFragment (splitNetloc (splitScheme (pyCleanUrl url0)).2).2).1).2,
    (splitFragment (splitNetloc (splitScheme (pyCleanUrl url0)).2).2).2⟩

/-- `urllib.parse._splitparams`, reached only under the `';' in url`
guard of `urlparse`: split the params off the last path segment. -/
def splitparams (url : List Char) : List Char × List Char :=
  match splitOnLast? '/' url with
  | some (before, after) =>
    match splitOnFirst? ';' after with
    | some (a1, a2) => (before ++ '/' :: a1, a2)
    | none => (url, [])
  | none =>
    match splitOnFirst? ';' url with
    | some (a1, a2) => (a1, a2)
    | none => (url, [])

/-- The six components returned by `urlparse`. -/
structure ParseResult where
  scheme : List Char
  netloc : List Char
  path : List Char
  params : List Char
  query : List Char
  fragment : List Char
deriving DecidableEq

/-- `uses_params` from `urllib.parse` (the schemes for which `urlparse`
splits params off the path; note the empty scheme is included). -/
def usesParams : List (List Char) :=
  [[], "ftp".toList, "hdl".toList, "prospero".toList, "http".toList, "imap".toList,
    "https".toList, "shttp".toList, "rtsp".toList, "rtsps".toList, "rtspu".toList,
    "sip".toList, "sips".toList, "mms".toList, "sftp".toList, "tel".toList]

/-- `urllib.parse.urlparse`: `urlsplit` plus the params split, applied
only when the scheme is in `uses_params`. -/
def urlparse (url : List Char) : ParseResult :=
  ⟨(urlsplit url).scheme,
    (urlsplit url).netloc,
    (if (urlsplit url).scheme ∈ usesParams ∧ ';' ∈ (urlsplit url).path then
      (splitparams (urlsplit url).path).1 else (urlsplit url).path),
    (if (urlsplit url).scheme ∈ usesParams ∧ ';' ∈ (urlsplit url).path then
      (splitparams (urlsplit url).path).2 else []),
    (urlsplit url).query,
    (urlsplit url).fragment⟩

/-- First mutation of `url` in `urlunsplit` (CPython 3.11): re-add `//`
when there is a netloc, or when the scheme uses a netloc and the path
does not already start with `//`. -/
def unsplitNetlocStage (scheme netloc url : List Char) : List Char :=
  if netloc ≠ [] ∨ (scheme ≠ [] ∧ scheme ∈ usesNetloc ∧ url.take 2 ≠ ['/', '/']) then
    '/' :: '/' :: (netloc ++ (if url ≠ [] ∧ url.head? ≠ some '/' then '/' :: url else url))
  else url

/-- `if scheme: url = scheme + ':' + url`. -/
def withScheme (scheme url1 : List Char) : List Char :=
  if scheme ≠ [] then scheme ++ ':' :: url1 else url1

/-- `if query: url = url + '?' + query`. -/
def withQuery (query url2 : List Char) : List Char :=
  if query ≠ [] then url2 ++ '?' :: query else url2

/-- `if fragment: url = url + '#' + fragment`. -/
def withFragment (fragment url3 : List Char) : List Char :=
  if fragment ≠ [] then url3 ++ '#' :: fragment else url3

/-- `urllib.parse.urlunsplit` (CPython 3.11), as the sequence of the four
`url` mutations of the source. -/
def urlunsplit (scheme netloc url query fragment : List Char) : List Char :=
  withFragment fragment
    (withQuery query (withScheme scheme (unsplitNetlocStage scheme netloc url)))

/-- `urllib.parse.urlunparse`: re-attach params, then `urlunsplit`. -/
def urlunparse (p : ParseResult) : List Char :=
  urlunsplit p.scheme p.netloc
    (if p.params ≠ [] then p.path ++ ';' :: p.params else p.path) p.query p.fragment

/-- `normalize_url` from `src/app/services/crawler.py`: drop the
fragment, re-assemble, and strip exactly one trailing slash. -/
def normalize_url (url : List Char) : List Char :=
  if (urlunparse { urlparse url with fragment := [] }).getLast? = some '/' then
    (urlunparse { urlparse url with fragment := [] }).dropLast
  else urlunparse { urlparse url with fragment := [] }

/-- `same_domain` from `src/app/services/crawler.py`: byte-equality of
the two netlocs. -/
def same_domain (url root : List Char) : Bool :=
  (urlparse url).netloc == (urlparse root).netloc

/-- The re-attachment of params performed by `urlunparse`
(`if params: url = path + ';' + params`), applied to the output of
`urlparse`'s params split. -/
def pathWithParams (scheme path : List Char) : List Char :=
  if scheme ∈ usesParams ∧ ';' ∈ path then
    (if (splitparams path).2 ≠ [] then
      (splitparams path).1 ++ ';' :: (splitparams path).2
    else (splitparams path).1)
  else path

/-! ### `_FetchThrottle` (src/app/services/crawler.py)

Python floats are modelled as `ℚ`; `time.monotonic()` instants are inputs. -/

/-- The `_FetchThrottle` state: `_interval` and `_next_allowed`
(the `Lock` serializes access; each admitted `wait_turn` and each
`backoff` is one atomic state update here). -/
structure FetchThrottle where
  interval : Rat
  next_allowed : Rat
deriving DecidableEq

/-- `_FetchThrottle.__init__`: `self._interval = max(0.05, min_interval)`,
`self._next_allowed = 0.0` (0.05 is written `mkRat 1 20`). -/
def throttleInit (min_request_interval : Rat) : FetchThrottle :=
  { interval := max (mkRat 1 20) min_request_interval, next_allowed := 0 }

/-- The admission test of `wait_turn` with the lock held at monotonic
time `now`: `wait_time = _next_allowed - now <= 0`. -/
def canAdmit (t : FetchThrottle) (now : Rat) : Prop :=
  t.next_allowed - now ≤ 0

instance (t : FetchThrottle) (now : Rat) : Decidable (canAdmit t now) := by
  unfold canAdmit
  infer_instance

/-- The state update of an admitted `wait_turn` call:
`self._next_allowed = now + self._interval`. -/
def wait_turn_step (t : FetchThrottle) (now : Rat) : FetchThrottle :=
  { t with next_allowed := now + t.interval }

/-- `backoff(delay)`:
`self._next_allowed = max(self._next_allowed, time.monotonic() + delay)`. -/
def throttleBackoff (t : FetchThrottle) (now delay : Rat) : FetchThrottle :=
  { t with next_allowed := max t.next_allowed (now + delay) }

/-! ### Fetch worker `_process_url` (src/app/services/crawler.py) -/

/-- `int(ds)` over a digit string. -/
def digitsVal (ds : List Char) : Nat :=
  ds.foldl (fun acc c => acc * 10 + (c.toNat - ('0').toNat)) 0

/-- Exponent part of a float literal: optional sign then digits, with
nothing allowed afterwards. -/
def pyFloatExp? (r : List Char) : Option Int :=
  match r with
  | '-' :: t =>
    if t.takeWhile Char.isDigit ≠ [] ∧ t.dropWhile Char.isDigit = [] then
      some (-(digitsVal (t.takeWhile Char.isDigit) : Int))
    else none
  | '+' :: t =>
    if t.takeWhile Char.isDigit ≠ [] ∧ t.dropWhile Char.isDigit = [] then
      some ((digitsVal (t.takeWhile Char.isDigit) : Int))
    else none
  | t =>
    if t.takeWhile Char.isDigit ≠ [] ∧ t.dropWhile Char.isDigit = [] then
      some ((digitsVal (t.takeWhile Char.isDigit) : Int))
    else none

/-- Apply a decimal exponent (scaling written through `mkRat` so that the
kernel can evaluate it). -/
def applyExp (x : Rat) (e : Int) : Rat :=
  if 0 ≤ e then mkRat (x.num * (10 : Int) ^ e.toNat) x.den
  else mkRat x.num (x.den * (10 : Nat) ^ (-e).toNat)

/-- Mantissa-and-rest parse: digits, optional `.` plus digits. -/
def pyFloatMantissa (t1 : List Char) : (List Char × List Char × List Char) :=
  match t1.dropWhile Char.isDigit with
  | '.' :: r =>
    (t1.takeWhile Char.isDigit, r.takeWhile Char.isDigit, r.dropWhile Char.isDigit)
  | r => (t1.takeWhile Char.isDigit, [], r)

/-- Python `float(s)` as used on the `Retry-After` header, modelled for
the common numeric literal forms: optional surrounding whitespace,
optional sign, digits with an optional fractional part and an optional
decimal exponent.  Returns `none` where CPython raises `ValueError`
(e.g. an HTTP-date `Retry-After`).  `inf`/`nan` and digit-group
underscores are not modelled. -/
def pyFloat? (s : List Char) : Option Rat :=
  match pyStrip s with
  | '-' :: t1 => (pyFloatNum? t1).map (fun x => -x)
  | '+' :: t1 => pyFloatNum? t1
  | t1 => pyFloatNum? t1
where
  pyFloatNum? (t1 : List Char) : Option Rat :=
    match pyFloatMantissa t1 with
    | (intDs, fracDs, rest) =>
      if intDs = [] ∧ fracDs = [] then none
      else
        match rest with
        | [] => some (mkRat
            ((digitsVal intDs : Int) * (10 : Int) ^ fracDs.length + (digitsVal fracDs : Int))
            ((10 : Nat) ^ fracDs.length))
        | 'e' :: r =>
          (pyFloatExp? r).map (applyExp (mkRat
            ((digitsVal intDs : Int) * (10 : Int) ^ fracDs.length + (digitsVal fracDs : Int))
            ((10 : Nat) ^ fracDs.length)))
        | 'E' :: r =>
          (pyFloatExp? r).map (applyExp (mkRat
            ((digitsVal intDs : Int) * (10 : Int) ^ fracDs.length + (digitsVal fracDs : Int))
            ((10 : Nat) ^ fracDs.length)))
        | _ => none

/-- Python `sub in s` substring containment. -/
def pySubstr (sub s : List Char) : Bool :=
  (List.range (s.length + 1)).any (fun i => sub.isPrefixOf (s.drop i))

/-- The response headers read by the worker
(`headers.get("Retry-After")`, `headers.get("content-type")`). -/
structure RespHeaders where
  retry_after : Option (List Char)
  content_type : Option (List Char)
deriving DecidableEq

/-- A fetched page body, modelled by the outputs of the external
BeautifulSoup pipeline on it: the text `extract_text` produces and the
anchor `href` values found by `soup.find_all("a", href=True)`. -/
structure PageBody where
  extracted : List Char
  anchors : List (List Char)
deriving DecidableEq

/-- Outcome of `client.get(...)`: either the call raises (connection
error, timeout, ...) or yields a response. -/
inductive FetchOutcome where
  | raises
  | response (status : Nat) (headers : RespHeaders) (body : PageBody)
deriving DecidableEq

/-- Outcome of the worker's persistence block (`SessionLocal()` session,
delete, insert, flush, `index_document_chunks`, commit). -/
inductive PersistOutcome where
  | ok
  | raises
deriving DecidableEq

/-- What one `_process_url` call returned and did. -/
structure WorkerEffects where
  result : Nat × List (List Char × Nat)
  backoff_delay : Option Rat
  persisted : Bool
deriving DecidableEq

/-- `_process_url` from `crawl_project` (src/app/services/crawler.py).
`robots` is `none` when robots.txt could not be read at crawl start (the
code then treats every URL as allowed); a `some can_fetch` abstracts
`rp.can_fetch("ChatbotCrawler", url)`.  `resolve` abstracts
`urljoin(normalized + "/", href)` (urllib is external to the worker's
logic).  The fetch and persistence outcomes are environment inputs; an
exception anywhere inside the `try` is the corresponding failure case
and yields `(0, [])` through the broad `except`. -/
def robotsDisallow (robots : Option (List Char → Bool)) (url : List Char) : Bool :=
  match robots with
  | some can_fetch => !can_fetch (normalize_url url)
  | none => false

/-- The body of `_process_url`; see `robotsDisallow` for the parameter
conventions. -/
def _process_url (max_depth : Nat) (robots : Option (List Char → Bool))
    (resolve : List Char → List Char → List Char)
    (fetch : FetchOutcome) (persist : PersistOutcome)
    (target_url : List Char) (depth : Nat) : WorkerEffects :=
  if robotsDisallow robots target_url then
    { result := (0, []), backoff_delay := none, persisted := false }
  else
    match fetch with
    | .raises => { result := (0, []), backoff_delay := none, persisted := false }
    | .response status headers body =>
      if status = 429 ∨ status = 503 then
        match headers.retry_after with
        | none => { result := (0, []), backoff_delay := some 5, persisted := false }
        | some ra =>
          match pyFloat? ra with
          | some d => { result := (0, []), backoff_delay := some d, persisted := false }
          | none => { result := (0, []), backoff_delay := none, persisted := false }
      else if !pySubstr ("text/html".toList) (headers.content_type.getD []) then
        { result := (0, []), backoff_delay := none, persisted := false }
      else if body.extracted = [] then
        { result := (0, []), backoff_delay := none, persisted := false }
      else
        match persist with
        | .raises => { result := (0, []), backoff_delay := none, persisted := false }
        | .ok =>
          { result := (1,
              if depth + 1 ≤ max_depth then
                body.anchors.map (fun href => (resolve (normalize_url target_url) href, depth + 1))
              else []),
            backoff_delay := none, persisted := true }

/-! ### Crawl orchestrator `crawl_project` (src/app/services/crawler.py) -/

/-- `CrawlStatus` (src/app/enums.py). -/
inductive CrawlStatus
  | PENDING
  | RUNNING
  | DONE
  | FAILED
deriving DecidableEq

/-- `CrawlConfig` (src/app/services/crawler.py). -/
structure CrawlConfig where
  max_pages : Nat
  max_depth : Nat
  min_request_interval : Rat
  max_concurrency : Nat
deriving DecidableEq

/-- The mutable loop state of `crawl_project`: the frontier `queue`, the
`visited` set (a list, membership up to duplicates), the `in_flight`
futures (as the (url, depth) jobs they were submitted with, in
submission order), and `processed_pages`.  `submitted` is a ghost
history of every URL ever handed to `submit_job`, used to express that
no URL is fetched twice in one run. -/
structure OrchState where
  queue : List (List Char × Nat)
  visited : List (List Char)
  in_flight : List (List Char × Nat)
  processed_pages : Nat
  submitted : List (List Char)
deriving DecidableEq

/-- Initial state of the main loop: `queue = deque([(start_url, 0)])`,
everything else empty/zero. -/
def initState (start_url : List Char) : OrchState :=
  { queue := [(start_url, 0)], visited := [], in_flight := [], processed_pages := 0,
    submitted := [] }

/-- The link-append loop run for one completed future (crawler.py lines
213-219): with `processed_pages` already updated it is constant across
the loop, so the `break` admits either all links or none; each admitted
link is normalized and skipped if already visited. -/
def appendLinks (c : CrawlConfig) (processed : Nat) (visited : List (List Char))
    (queue : List (List Char × Nat)) (links : List (List Char × Nat)) :
    List (List Char × Nat) :=
  if c.max_pages ≤ processed then queue
  else queue ++ links.filterMap
    (fun td => if normalize_url td.1 ∈ visited then none else some (normalize_url td.1, td.2))

/-- The fill phase (crawler.py lines 183-203) as structural recursion on
the queue: while the concurrency and page-budget guards hold, pop a
job, skip it if visited / too deep / off-site, otherwise mark visited
and submit. -/
def fillGo (c : CrawlConfig) (start_url : List Char) (processed : Nat) :
    List (List Char × Nat) → List (List Char) → List (List Char × Nat) →
      List (List Char) →
      List (List Char × Nat) × List (List Char) × List (List Char × Nat) × List (List Char)
  | [], visited, infl, sub => ([], visited, infl, sub)
  | (url, depth) :: rest, visited, infl, sub =>
    if infl.length < c.max_concurrency ∧ processed + infl.length < c.max_pages then
      if normalize_url url ∈ visited ∨ c.max_depth < depth then
        fillGo c start_url processed rest visited infl sub
      else if ¬ same_domain (normalize_url url) start_url then
        fillGo c start_url processed rest visited infl sub
      else
        fillGo c start_url processed rest (normalize_url url :: visited)
          (infl ++ [(normalize_url url, depth)]) (normalize_url url :: sub)
    else ((url, depth) :: rest, visited, infl, sub)

/-- One pass of the fill phase over the whole state. -/
def fillPhase (c : CrawlConfig) (start_url : List Char) (st : OrchState) : OrchState :=
  match fillGo c start_url st.processed_pages st.queue st.visited st.in_flight st.submitted with
  | (q, v, f, s) =>
    { queue := q, visited := v, in_flight := f, processed_pages := st.processed_pages,
      submitted := s }

/-- Completion of the first in-flight future (the simulator's
deterministic rendering of `wait(in_flight, FIRST_COMPLETED)`): the
worker result `W u d` is consumed, `processed_pages` is bumped and the
discovered links are appended. -/
def completeFirst (c : CrawlConfig) (W : List Char → Nat → Nat × List (List Char × Nat))
    (st : OrchState) : OrchState :=
  match st.in_flight with
  | [] => st
  | (u, d) :: rest =>
    match W u d with
    | (p, links) =>
      { queue := appendLinks c (st.processed_pages + p) st.visited st.queue links,
        visited := st.visited, in_flight := rest, processed_pages := st.processed_pages + p,
        submitted := st.submitted }

/-- The `while (queue or in_flight) and processed_pages < max_pages`
guard. -/
def loopCheck (c : CrawlConfig) (st : OrchState) : Prop :=
  (st.queue ≠ [] ∨ st.in_flight ≠ []) ∧ st.processed_pages < c.max_pages

instance (c : CrawlConfig) (st : OrchState) : Decidable (loopCheck c st) := by
  unfold loopCheck
  infer_instance

/-- Fuel-indexed main loop of `crawl_project`.  `fault = some k` injects
an orchestrator-level exception at the start of iteration `k` (the
model of the broad `except Exception: failed = True`); the returned
Bool is the `failed` flag, the Nat the final `processed_pages`. -/
def crawlLoop (c : CrawlConfig) (W : List Char → Nat → Nat × List (List Char × Nat))
    (start_url : List Char) (fault : Option Nat) :
    Nat → Nat → OrchState → Bool × Nat
  | 0, _, st => (false, st.processed_pages)
  | Nat.succ fuel, iter, st =>
    if loopCheck c st then
      if fault = some iter then (true, st.processed_pages)
      else if (fillPhase c start_url st).in_flight = [] then
        (false, (fillPhase c start_url st).processed_pages)
      else
        crawlLoop c W start_url fault fuel (iter + 1)
          (completeFirst c W (fillPhase c start_url st))
    else (false, st.processed_pages)

/-- What `crawl_project` leaves behind after its `finally` block. -/
structure RunResult where
  crawl_status : CrawlStatus
  last_crawled_at : Option Nat
  client_closed : Bool
  executor_shutdown : Bool
  processed_pages : Nat
deriving DecidableEq

/-- `crawl_project` end to end: run the main loop from the initial
state, then the `finally` block — close the client, shut the executor
down, set the status from the `failed` flag, stamp `last_crawled_at`
and return (never re-raise). -/
def crawl_project_run (c : CrawlConfig) (W : List Char → Nat → Nat × List (List Char × Nat))
    (start_url : List Char) (fault : Option Nat) (now : Nat) (fuel : Nat) : RunResult :=
  match crawlLoop c W start_url fault fuel 0 (initState start_url) with
  | (failed, processed) =>
    { crawl_status := if failed then CrawlStatus.FAILED else CrawlStatus.DONE,
      last_crawled_at := some now,
      client_closed := true,
      executor_shutdown := true,
      processed_pages := processed }

/-- Nondeterministic small-step semantics of the main loop, covering
every completion order the thread pool may exhibit.  `fill_skip` and
`fill_submit` are single fill-phase iterations under the source's
guards; `complete` retires any in-flight future whose worker returned
`(p, links)` with `p ≤ 1` (every `_process_url` result has `p ≤ 1`). -/
inductive CrawlStep (c : CrawlConfig) (start_url : List Char) : OrchState → OrchState → Prop
  | fill_skip (url : List Char) (depth : Nat) (rest : List (List Char × Nat))
      (v : List (List Char)) (f : List (List Char × Nat)) (pr : Nat) (sub : List (List Char))
      (hc : f.length < c.max_concurrency) (hp : pr + f.length < c.max_pages)
      (hskip : normalize_url url ∈ v ∨ c.max_depth < depth ∨
        ¬ same_domain (normalize_url url) start_url) :
      CrawlStep c start_url ⟨(url, depth) :: rest, v, f, pr, sub⟩ ⟨rest, v, f, pr, sub⟩
  | fill_submit (url : List Char) (depth : Nat) (rest : List (List Char × Nat))
      (v : List (List Char)) (f : List (List Char × Nat)) (pr : Nat) (sub : List (List Char))
      (hc : f.length < c.max_concurrency) (hp : pr + f.length < c.max_pages)
      (hnew : normalize_url url ∉ v) (hd : depth ≤ c.max_depth)
      (hdom : same_domain (normalize_url url) start_url) :
      CrawlStep c start_url ⟨(url, depth) :: rest, v, f, pr, sub⟩
        ⟨rest, normalize_url url :: v, f ++ [(normalize_url url, depth)], pr,
          normalize_url url :: sub⟩
  | complete (q : List (List Char × Nat)) (v : List (List Char))
      (f1 : List (List Char × Nat)) (u : List Char) (d : Nat) (f2 : List (List Char × Nat))
      (pr : Nat) (sub : List (List Char)) (p : Nat) (links : List (List Char × Nat))
      (hone : p ≤ 1) :
      CrawlStep c start_url ⟨q, v, f1 ++ (u, d) :: f2, pr, sub⟩
        ⟨appendLinks c (pr + p) v q links, v, f1 ++ f2, pr + p, sub⟩

/-- Reachability of a loop state from the initial state. -/
def CrawlReach (c : CrawlConfig) (start_url : List Char) (st : OrchState) : Prop :=
  Relation.ReflTransGen (CrawlStep c start_url) (initState start_url) st

/-- The i-th page of the demo site: `http://a.com/xy` with two letter
characters encoding `i` (distinct for `i < 56`). -/
def demoUrl (i : Nat) : List Char :=
  "http://a.com/".toList ++ [Char.ofNat (97 + i / 7), Char.ofNat (97 + i % 7)]

def demoStart : List Char := demoUrl 0

/-- Demo site graph with 50 reachable pages and no page-level failures:
the start page links to the other 49, every fetch succeeds and yields
one processed page. -/
def demoWorker (u : List Char) (d : Nat) : Nat × List (List Char × Nat) :=
  if u = demoStart then (1, (List.range 49).map fun i => (demoUrl (i + 1), d + 1))
  else (1, [])

def demoConfig : CrawlConfig :=
  { max_pages := 5, max_depth := 3, min_request_interval := mkRat 3 10, max_concurrency := 4 }

/-! ### Documents, chunks and indexing (src/app/models, src/app/services/knowledge.py) -/

/-- `DocumentSourceType` (src/app/enums.py). -/
inductive DocumentSourceType
  | CRAWLED_PAGE
  | UPLOADED_FILE
  | MANUAL_ENTRY
deriving DecidableEq

/-- A `documents` row (src/app/models/document.py). -/
structure Document where
  id : Nat
  project_id : Nat
  source_type : DocumentSourceType
  url_or_name : List Char
  raw_content : List Char
deriving DecidableEq

/-- A `chunks` row (src/app/models/chunk.py); the autoincrement id is
immaterial here. -/
structure Chunk where
  project_id : Nat
  document_id : Nat
  content : List Char
  embedding : List Rat
deriving DecidableEq

/-- The two tables a worker session touches. -/
structure WorkerDb where
  documents : List Document
  chunks : List Chunk
deriving DecidableEq

/-- The filter of `_delete_existing_document`: same project, source
type `CRAWLED_PAGE`, same `url_or_name`. -/
def matchesCrawled (project_id : Nat) (url : List Char) (doc : Document) : Bool :=
  decide (doc.project_id = project_id) &&
    decide (doc.source_type = DocumentSourceType.CRAWLED_PAGE) &&
    decide (doc.url_or_name = url)

/-- `_delete_existing_document` (src/app/services/crawler.py lines
81-95): delete every matching Document; the `cascade="all,delete"` on
`Document.chunks` removes each deleted document's Chunk rows with it.
(When nothing matches the early `return` leaves the session untouched,
which coincides with filtering by an empty id set.) -/
def _delete_existing_document (db : WorkerDb) (project_id : Nat) (url : List Char) :
    WorkerDb :=
  { documents := db.documents.filter (fun d => !matchesCrawled project_id url d),
    chunks := db.chunks.filter
      (fun ch => !(decide (ch.document_id ∈
        (db.documents.filter (fun d => matchesCrawled project_id url d)).map
          (fun d => d.id)))) }

/-- The Chunk rows created for one document by `index_document_chunks`:
`zip(chunks, embeddings)` with `embeddings = embed_texts(chunks)`. -/
def chunkRowsFor (embed : List (List Char) → List (List Rat)) (project_id : Nat)
    (document : Document) : List Chunk :=
  ((split_into_chunks document.raw_content 3500).zip
      (embed (split_into_chunks document.raw_content 3500))).map
    (fun p => { project_id := project_id, document_id := document.id,
                content := p.1, embedding := p.2 })

/-- `index_document_chunks` (src/app/services/knowledge.py lines 18-36):
split the document, return early when there are no chunks, otherwise
embed each chunk and add one Chunk row per (text, embedding) pair.
`embed` abstracts `embed_texts`, which forwards `list(texts)` to the
OpenAI API unfiltered. -/
def index_document_chunks (embed : List (List Char) → List (List Rat)) (db : WorkerDb)
    (project_id : Nat) (document : Document) : WorkerDb :=
  if split_into_chunks document.raw_content 3500 = [] then db
  else
    { documents := db.documents,
      chunks := db.chunks ++ chunkRowsFor embed project_id document }

/-- The worker persistence block (src/app/services/crawler.py lines
154-166): in one session, delete the existing document(s) for the
normalized URL, insert the fresh `CRAWLED_PAGE` document (with the id
the flush assigns), index its chunks, commit. -/
def workerPersist (embed : List (List Char) → List (List Rat)) (db : WorkerDb)
    (project_id : Nat) (normalized raw_content : List Char) (new_id : Nat) : WorkerDb :=
  index_document_chunks embed
    { documents := (_delete_existing_document db project_id normalized).documents ++
        [⟨new_id, project_id, DocumentSourceType.CRAWLED_PAGE, normalized, raw_content⟩],
      chunks := (_delete_existing_document db project_id normalized).chunks }
    project_id
    ⟨new_id, project_id, DocumentSourceType.CRAWLED_PAGE, normalized, raw_content⟩

/-- A session that already holds a stale crawl of `http://a.com/x`
(document id 1) together with its one chunk. -/
def staleDb : WorkerDb where
  documents := [⟨1, 7, DocumentSourceType.CRAWLED_PAGE, "http://a.com/x".toList, "old".toList⟩]
  chunks := [⟨7, 1, "old".toList, [1]⟩]

/-! ### Retrieval (src/app/services/rag.py) -/

/-- A `chunks` row as the retrieval query sees it: its project, its
`updated_at` timestamp (larger = more recent) and its embedding. -/
structure RagChunk where
  project_id : Nat
  updated_at : Nat
  embedding : List Rat
deriving DecidableEq

/-- `_cosine_similarity` (src/app/services/rag.py lines 10-20).
`math.sqrt` is external floating-point code, abstracted as `sqrtF`. -/
def _cosine_similarity (sqrtF : Rat → Rat) (left right : List Rat) : Rat :=
  if left = [] ∨ right = [] then 0
  else if sqrtF (left.foldl (fun acc x => acc + x * x) 0) *
      sqrtF (right.foldl (fun acc x => acc + x * x) 0) = 0 then 0
  else ((left.zip right).foldl (fun acc p => acc + p.1 * p.2) 0) /
    (sqrtF (left.foldl (fun acc x => acc + x * x) 0) *
      sqrtF (right.foldl (fun acc x => acc + x * x) 0))

/-- `ORDER BY updated_at DESC` as a Bool relation. -/
def updatedDesc (a b : RagChunk) : Bool := decide (b.updated_at ≤ a.updated_at)

/-- `sorted(..., key=lambda item: item[0], reverse=True)` as a Bool
relation on (score, chunk) pairs. -/
def scoreDesc (a b : Rat × RagChunk) : Bool := decide (b.1 ≤ a.1)

/-- The candidate query of `fetch_relevant_chunks` (rag.py lines
24-31): the project's chunks, most recently updated first, limited to
`candidate_limit = max(limit * 20, 200)`. -/
def rag_candidates (db : List RagChunk) (project_id : Nat) (limit : Nat) : List RagChunk :=
  ((db.filter (fun ch => decide (ch.project_id = project_id))).mergeSort updatedDesc).take
    (max (limit * 20) 200)

/-- `fetch_relevant_chunks` (rag.py lines 23-40): score every candidate
with `_cosine_similarity` against the query embedding, sort by score
descending, return the chunks of the top `limit` pairs. -/
def fetch_relevant_chunks (sqrtF : Rat → Rat) (db : List RagChunk) (project_id : Nat)
    (embedding : List Rat) (limit : Nat) : List RagChunk :=
  ((((rag_candidates db project_id limit).map
      (fun ch => (_cosine_similarity sqrtF ch.embedding embedding, ch))).mergeSort
      scoreDesc).take limit).map (fun p => p.2)

/-! ### Theorems -/

theorem length_dropSpaces_le (s : List Char) : (dropSpaces s).length ≤ s.length := by
  induction s with
  | nil => simp [dropSpaces]
  | cons c rest ih =>
    simp only [dropSpaces]
    split
    · exact Nat.le_succ_of_le ih
    · simp

example : split_into_chunks ("short text".toList) 3500 = [("short text".toList)] := by decide

example : split_into_chunks ("ab cd ef".toList) 5 =
    [("ab cd".toList), ("ef".toList)] := by decide

example : split_into_chunks ("one. two. three".toList) 9 =
    [("one. two.".toList), ("three".toList)] := by decide

example : split_into_chunks ("abcdefgh".toList) 3 =
    [("abc".toList), ("def".toList), ("gh".toList)] := by decide

example : split_into_chunks [] 3500 = [[]] := by decide

example : split_into_chunks ("   ".toList) 1 = [("   ".toList)] := by decide

/-! ### Chunker invariants -/

theorem joinSpRest_append_singleton (ws : List (List Char)) (w : List Char) :
    joinSpRest (ws ++ [w]) = joinSpRest ws ++ ' ' :: w := by
  induction ws with
  | nil => simp [joinSpRest]
  | cons a ws ih => simp [joinSpRest, ih]

theorem joinSp_singleton (w : List Char) : joinSp [w] = w := by
  simp [joinSp, joinSpRest]

theorem length_joinSp_append (ws : List (List Char)) (w : List Char) (h : ws ≠ []) :
    (joinSp (ws ++ [w])).length = (joinSp ws).length + 1 + w.length := by
  cases ws with
  | nil => exact absurd rfl h
  | cons a t =>
    simp only [List.cons_append, joinSp, joinSpRest_append_singleton]
    simp only [List.length_append, List.length_cons]
    omega

theorem mem_sliceChunksFuel_length {n fuel : Nat} {s p : List Char}
    (hp : p ∈ sliceChunksFuel n fuel s) : p.length ≤ n := by
  induction fuel generalizing s with
  | zero => simp [sliceChunksFuel] at hp
  | succ fuel ih =>
    cases s with
    | nil => simp [sliceChunksFuel] at hp
    | cons c rest =>
      simp only [sliceChunksFuel, List.mem_cons] at hp
      rcases hp with h | h
      · subst h
        simp [List.length_take]
      · exact ih h

theorem mem_sliceChunks_length {n : Nat} {s p : List Char}
    (hp : p ∈ sliceChunks s n) : p.length ≤ n :=
  mem_sliceChunksFuel_length hp

theorem sliceChunks_ne_nil {n : Nat} {s : List Char} (hs : s ≠ []) :
    sliceChunks s n ≠ [] := by
  unfold sliceChunks
  cases s with
  | nil => exact absurd rfl hs
  | cons c rest => simp [sliceChunksFuel]

theorem mem_pySplitWsGo_ne_nil {cur : List Char} {s : List Char} {w : List Char}
    (hw : w ∈ pySplitWsGo cur s) : w ≠ [] := by
  induction s generalizing cur with
  | nil =>
    unfold pySplitWsGo at hw
    split at hw
    · simp at hw
    · rename_i h
      simp only [List.mem_singleton] at hw
      subst hw
      simpa using h
  | cons c rest ih =>
    unfold pySplitWsGo at hw
    split at hw
    · split at hw
      · exact ih hw
      · rename_i h
        simp only [List.mem_cons] at hw
        rcases hw with hw | hw
        · subst hw; simpa using h
        · exact ih hw
    · exact ih hw

theorem mem_pySplitWs_ne_nil {s w : List Char} (hw : w ∈ pySplitWs s) : w ≠ [] :=
  mem_pySplitWsGo_ne_nil hw

theorem flushCurrent_length {m : Nat} {st : PackState} (h : PackInv m st) :
    ∀ p ∈ flushCurrent st, p.length ≤ m := by
  intro p hp
  unfold flushCurrent at hp
  split at hp
  · exact h.1 p hp
  · rename_i hne
    simp only [List.mem_append, List.mem_singleton] at hp
    rcases hp with hp | hp
    · exact h.1 p hp
    · subst hp
      have := h.2.2 hne
      omega

theorem splitUnitStep_inv {m : Nat} {st : PackState} (h : PackInv m st) (w : List Char) :
    PackInv m (splitUnitStep m st w) := by
  by_cases hbig : m < w.length
  · have heq : splitUnitStep m st w =
        { parts := flushCurrent st ++ sliceChunks w m, current := [], current_len := 0 } := by
      unfold splitUnitStep
      rw [if_pos hbig]
    rw [heq]
    refine ⟨?_, fun _ => rfl, fun hc => absurd rfl hc⟩
    intro p hp
    rcases List.mem_append.mp hp with hp | hp
    · exact flushCurrent_length h p hp
    · exact mem_sliceChunks_length hp
  · push_neg at hbig
    by_cases hcur : st.current = []
    · have hlen0 := h.2.1 hcur
      have heq : splitUnitStep m st w =
          { parts := st.parts, current := st.current ++ [w]
            current_len := st.current_len + w.length } := by
        unfold splitUnitStep
        rw [if_neg (by omega), if_neg (by simp [hcur]), if_pos hcur]
      rw [heq]
      refine ⟨h.1, by simp, ?_⟩
      intro _
      rw [hcur]
      simp only [List.nil_append, joinSp_singleton]
      omega
    · have hj := h.2.2 hcur
      by_cases hover : m < st.current_len + (w.length + 1)
      · have heq : splitUnitStep m st w =
            { parts := st.parts ++ [joinSp st.current], current := [w]
              current_len := w.length } := by
          unfold splitUnitStep
          rw [if_neg (by omega), if_pos ⟨hcur, by rw [if_neg hcur]; exact hover⟩]
        rw [heq]
        refine ⟨?_, by simp, ?_⟩
        · intro p hp
          rcases List.mem_append.mp hp with hp | hp
          · exact h.1 p hp
          · rcases List.mem_singleton.mp hp with rfl
            omega
        · intro _
          exact ⟨by simp [joinSp_singleton], hbig⟩
      · have heq : splitUnitStep m st w =
            { parts := st.parts, current := st.current ++ [w]
              current_len := st.current_len + (w.length + 1) } := by
          unfold splitUnitStep
          rw [if_neg (by omega), if_neg (by rw [if_neg hcur]; tauto), if_neg hcur]
        rw [heq]
        refine ⟨h.1, by simp, ?_⟩
        intro _
        have hlj := length_joinSp_append st.current w hcur
        dsimp only
        omega

theorem foldl_splitUnitStep_inv {m : Nat} (ws : List (List Char)) (st : PackState)
    (h : PackInv m st) : PackInv m (ws.foldl (splitUnitStep m) st) := by
  induction ws generalizing st with
  | nil => simpa using h
  | cons w ws ih => exact ih _ (splitUnitStep_inv h w)

/-- Every fragment produced by `_split_unit` has length at most `max_chars`
(over-long single tokens are hard-sliced). -/
theorem mem_split_unit_length {s : List Char} {m : Nat} :
    ∀ f ∈ _split_unit s m, f.length ≤ m := by
  intro f hf
  unfold _split_unit at hf
  split at hf
  · simp at hf
  · split at hf
    · rename_i hlen
      simp only [List.mem_singleton] at hf
      subst hf; exact hlen
    · split at hf
      · exact mem_sliceChunks_length hf
      · have hinv : PackInv m (⟨[], [], 0⟩ : PackState) :=
          ⟨by simp, fun _ => rfl, fun hc => absurd rfl hc⟩
        exact flushCurrent_length (foldl_splitUnitStep_inv _ _ hinv) f hf

theorem splitUnitStep_progress {m : Nat} (st : PackState) {w : List Char}
    (hw : w ≠ []) :
    (splitUnitStep m st w).parts ≠ [] ∨ (splitUnitStep m st w).current ≠ [] := by
  unfold splitUnitStep
  by_cases hbig : m < w.length
  · rw [if_pos hbig]
    left
    intro hcontra
    rcases List.append_eq_nil.mp hcontra with ⟨_, h2⟩
    exact sliceChunks_ne_nil hw h2
  · rw [if_neg hbig]
    by_cases hfl : st.current ≠ [] ∧
        m < st.current_len + (if st.current = [] then w.length else w.length + 1)
    · rw [if_pos hfl]; right; simp
    · rw [if_neg hfl]; right; simp

theorem foldl_splitUnitStep_progress {m : Nat} (ws : List (List Char))
    (st : PackState) (hws : ws ≠ []) (hall : ∀ w ∈ ws, w ≠ []) :
    (ws.foldl (splitUnitStep m) st).parts ≠ [] ∨
      (ws.foldl (splitUnitStep m) st).current ≠ [] := by
  induction ws generalizing st with
  | nil => exact absurd rfl hws
  | cons w ws ih =>
    cases ws with
    | nil =>
      simpa using splitUnitStep_progress st (hall w (List.mem_cons_self w []))
    | cons w2 t =>
      exact ih _ (by simp) (fun x hx => hall x (List.mem_cons_of_mem w hx))

theorem flushCurrent_ne_nil {st : PackState}
    (h : st.parts ≠ [] ∨ st.current ≠ []) : flushCurrent st ≠ [] := by
  unfold flushCurrent
  split
  · rename_i hc
    rcases h with h | h
    · exact h
    · exact absurd hc h
  · simp

/-- `_split_unit` yields at least one fragment whenever its input has
non-whitespace content. -/
theorem split_unit_ne_nil {s : List Char} {m : Nat}
    (hs : pyStrip s ≠ []) : _split_unit s m ≠ [] := by
  unfold _split_unit
  rw [if_neg hs]
  split
  · simp
  · split
    · exact sliceChunks_ne_nil hs
    · refine flushCurrent_ne_nil ?_
      rename_i hlen hwords
      have hne : pySplitWs (pyStrip s) ≠ [] := by
        intro hcontra
        rw [hcontra] at hwords
        simp at hwords
      exact foldl_splitUnitStep_progress _ _ hne (fun w hw => mem_pySplitWs_ne_nil hw)

theorem chunkStep_inv {m : Nat} {st : ChunkState} (h : ChunkInv m st) {f : List Char}
    (hf : f.length ≤ m) : ChunkInv m (chunkStep m st f) := by
  by_cases hfl : m < st.current_len + f.length ∧ st.current ≠ []
  · have heq : chunkStep m st f =
        { chunks := st.chunks ++ [joinSp st.current], current := [f]
          current_len := f.length + 1 } := by
      unfold chunkStep
      rw [if_pos hfl]
    rw [heq]
    refine ⟨?_, by simp, ?_⟩
    · intro c hc
      rcases List.mem_append.mp hc with hc | hc
      · exact h.1 c hc
      · rcases List.mem_singleton.mp hc with rfl
        exact (h.2.2 hfl.2).2
    · intro _
      exact ⟨by simp [joinSp_singleton], by simpa [joinSp_singleton] using hf⟩
  · have heq : chunkStep m st f =
        { chunks := st.chunks, current := st.current ++ [f]
          current_len := st.current_len + f.length + 1 } := by
      unfold chunkStep
      rw [if_neg hfl]
    rw [heq]
    by_cases hcur : st.current = []
    · have hlen0 := h.2.1 hcur
      refine ⟨h.1, by simp, ?_⟩
      intro _
      rw [hcur]
      simp only [List.nil_append, joinSp_singleton]
      omega
    · have hj := h.2.2 hcur
      have hle : st.current_len + f.length ≤ m := by
        by_contra hcon
        push_neg at hcon
        exact hfl ⟨hcon, hcur⟩
      refine ⟨h.1, by simp, ?_⟩
      intro _
      have hlj := length_joinSp_append st.current f hcur
      dsimp only
      omega

theorem foldl_chunkStep_inv {m : Nat} (fs : List (List Char)) (st : ChunkState)
    (hall : ∀ f ∈ fs, f.length ≤ m) (h : ChunkInv m st) :
    ChunkInv m (fs.foldl (chunkStep m) st) := by
  induction fs generalizing st with
  | nil => simpa using h
  | cons f fs ih =>
    exact ih _ (fun x hx => hall x (List.mem_cons_of_mem f hx))
      (chunkStep_inv h (hall f (List.mem_cons_self f fs)))

theorem chunkAccum_inv {m : Nat} (sentences : List (List Char)) :
    ChunkInv m (chunkAccum m sentences) := by
  unfold chunkAccum
  have hinit : ChunkInv m (⟨[], [], 0⟩ : ChunkState) :=
    ⟨by simp, fun _ => rfl, fun hc => absurd rfl hc⟩
  generalize hst : (⟨[], [], 0⟩ : ChunkState) = st at hinit ⊢
  clear hst
  induction sentences generalizing st with
  | nil => simpa using hinit
  | cons sen rest ih =>
    exact ih _ (foldl_chunkStep_inv _ _ (fun f hf => mem_split_unit_length f hf) hinit)

theorem flushChunks_length {m : Nat} {st : ChunkState} (h : ChunkInv m st) :
    ∀ c ∈ flushChunks st, c.length ≤ m := by
  intro c hc
  unfold flushChunks at hc
  split at hc
  · exact h.1 c hc
  · rename_i hne
    rcases List.mem_append.mp hc with hc | hc
    · exact h.1 c hc
    · rcases List.mem_singleton.mp hc with rfl
      exact (h.2.2 hne).2

theorem chunkStep_current_ne_nil {m : Nat} (st : ChunkState) (f : List Char) :
    (chunkStep m st f).current ≠ [] := by
  unfold chunkStep
  by_cases hfl : m < st.current_len + f.length ∧ st.current ≠ []
  · rw [if_pos hfl]; simp
  · rw [if_neg hfl]; simp

theorem foldl_chunkStep_current {m : Nat} (fs : List (List Char)) (st : ChunkState)
    (h : st.current ≠ [] ∨ fs ≠ []) :
    (fs.foldl (chunkStep m) st).current ≠ [] := by
  induction fs generalizing st with
  | nil =>
    rcases h with h | h
    · simpa using h
    · exact absurd rfl h
  | cons f fs ih =>
    exact ih _ (Or.inl (chunkStep_current_ne_nil st f))

theorem chunkAccum_current {m : Nat} (sentences : List (List Char))
    (h : ∃ sen ∈ sentences, _split_unit sen m ≠ []) :
    (chunkAccum m sentences).current ≠ [] := by
  unfold chunkAccum
  suffices hgen : ∀ (st : ChunkState),
      (st.current ≠ [] ∨ ∃ sen ∈ sentences, _split_unit sen m ≠ []) →
      (sentences.foldl
        (fun st sentence => (_split_unit sentence m).foldl (chunkStep m) st) st).current ≠ [] by
    exact hgen _ (Or.inr h)
  clear h
  induction sentences with
  | nil =>
    intro st h
    rcases h with h | h
    · simpa using h
    · simp at h
  | cons sen rest ih =>
    intro st h
    simp only [List.foldl_cons]
    by_cases hfrag : _split_unit sen m = []
    · refine ih _ ?_
      rw [hfrag]
      simp only [List.foldl_nil]
      rcases h with h | ⟨x, hx, hxne⟩
      · exact Or.inl h
      · rcases List.mem_cons.mp hx with rfl | hx
        · exact absurd hfrag hxne
        · exact Or.inr ⟨x, hx, hxne⟩
    · exact ih _ (Or.inl (foldl_chunkStep_current _ _ (Or.inr hfrag)))

/-! ### Non-whitespace content survives `pyStrip` and `sentenceSplit` -/

theorem dropWhile_head_false {p : Char → Bool} :
    ∀ {l : List Char} {h : Char} {t : List Char}, l.dropWhile p = h :: t → p h = false := by
  intro l
  induction l with
  | nil => intro h t hc; simp [List.dropWhile] at hc
  | cons c rest ih =>
    intro h t hc
    rw [List.dropWhile_cons] at hc
    split at hc
    · exact ih hc
    · rename_i hp
      injection hc with h1 _
      subst h1
      simpa using hp

theorem mem_dropWhile_append_singleton {p : Char → Bool} {h : Char}
    (hh : p h = false) : ∀ (x : List Char), h ∈ List.dropWhile p (x ++ [h]) := by
  intro x
  induction x with
  | nil => simp [List.dropWhile, hh]
  | cons a x ih =>
    rw [List.cons_append, List.dropWhile_cons]
    split
    · exact ih
    · simp

theorem exists_not_ws_of_pyStrip_ne_nil {l : List Char} (h : pyStrip l ≠ []) :
    ∃ c ∈ pyStrip l, isPyWs c = false := by
  unfold pyStrip at h ⊢
  rcases hd : l.dropWhile isPyWs with _ | ⟨c, t⟩
  · rw [hd] at h
    simp at h
  · have hc : isPyWs c = false := dropWhile_head_false hd
    refine ⟨c, ?_, hc⟩
    rw [List.mem_reverse]
    have : (c :: t).reverse = t.reverse ++ [c] := by simp
    rw [this]
    exact mem_dropWhile_append_singleton hc t.reverse

theorem pyStrip_ne_nil_of_mem {l : List Char} {c : Char}
    (hc : c ∈ l) (hw : isPyWs c = false) : pyStrip l ≠ [] := by
  intro hcontra
  unfold pyStrip at hcontra
  have h1 : (l.dropWhile isPyWs).reverse.dropWhile isPyWs = [] := by
    simpa using hcontra
  have h2 : ∀ x ∈ (l.dropWhile isPyWs).reverse, isPyWs x = true :=
    List.dropWhile_eq_nil_iff.mp h1
  have h3 : ∀ x ∈ l.dropWhile isPyWs, isPyWs x = true := by
    intro x hx
    exact h2 x (List.mem_reverse.mpr hx)
  have h4 : c ∈ l.takeWhile isPyWs ++ l.dropWhile isPyWs := by
    rw [List.takeWhile_append_dropWhile]
    exact hc
  rcases List.mem_append.mp h4 with h5 | h5
  · exact absurd (List.mem_takeWhile_imp h5) (by simp [hw])
  · exact absurd (h3 c h5) (by simp [hw])

theorem isSentEnd_not_ws {c : Char} (h : isSentEnd c = true) : isPyWs c = false := by
  unfold isSentEnd at h
  rcases Bool.or_eq_true_iff.mp h with h1 | h1
  · rcases Bool.or_eq_true_iff.mp h1 with h2 | h2
    · rw [show c = '.' from eq_of_beq h2]; decide
    · rw [show c = '!' from eq_of_beq h2]; decide
  · rw [show c = '?' from eq_of_beq h1]; decide

theorem sentenceSplitFuel_exists_content :
    ∀ (fuel : Nat) (acc s : List Char), s.length ≤ fuel →
    ((∃ c ∈ acc, isPyWs c = false) ∨ (∃ c ∈ s, isPyWs c = false)) →
    ∃ p ∈ sentenceSplitFuel fuel acc s, pyStrip p ≠ [] := by
  intro fuel
  induction fuel with
  | zero =>
    intro acc s hlen hc
    have hs : s = [] := List.length_eq_zero.mp (Nat.le_zero.mp hlen)
    subst hs
    rcases hc with ⟨c, hc, hcw⟩ | ⟨c, hc, _⟩
    · exact ⟨acc.reverse, by simp [sentenceSplitFuel],
        pyStrip_ne_nil_of_mem (List.mem_reverse.mpr hc) hcw⟩
    · simp at hc
  | succ fuel ih =>
    intro acc s hlen hc
    cases s with
    | nil =>
      rcases hc with ⟨c, hc, hcw⟩ | ⟨c, hc, _⟩
      · exact ⟨acc.reverse, by simp [sentenceSplitFuel],
          pyStrip_ne_nil_of_mem (List.mem_reverse.mpr hc) hcw⟩
      · simp at hc
    | cons c rest =>
      have hstep : sentenceSplitFuel (fuel + 1) acc (c :: rest) =
          if isSentEnd c ∧ rest.head? = some ' ' then
            (acc.reverse ++ [c]) :: sentenceSplitFuel fuel [] (dropSpaces rest)
          else sentenceSplitFuel fuel (c :: acc) rest := rfl
      by_cases hsplit : isSentEnd c ∧ rest.head? = some ' '
      · rw [hstep, if_pos hsplit]
        refine ⟨acc.reverse ++ [c], List.mem_cons_self _ _, ?_⟩
        exact pyStrip_ne_nil_of_mem (List.mem_append_right _ (List.mem_singleton.mpr rfl))
          (isSentEnd_not_ws hsplit.1)
      · rw [hstep, if_neg hsplit]
        refine ih (c :: acc) rest (by simp at hlen; omega) ?_
        rcases hc with ⟨x, hx, hxw⟩ | ⟨x, hx, hxw⟩
        · exact Or.inl ⟨x, List.mem_cons_of_mem c hx, hxw⟩
        · rcases List.mem_cons.mp hx with rfl | hx
          · exact Or.inl ⟨x, List.mem_cons_self x acc, hxw⟩
          · exact Or.inr ⟨x, hx, hxw⟩

theorem sentenceSplit_exists_content {s : List Char} (h : pyStrip s ≠ []) :
    ∃ p ∈ sentenceSplit (pyStrip s), pyStrip p ≠ [] := by
  unfold sentenceSplit
  refine sentenceSplitFuel_exists_content _ [] _ le_rfl (Or.inr ?_)
  exact exists_not_ws_of_pyStrip_ne_nil h

/-- C5: every chunk returned by `split_into_chunks` has length at most
`max_chars`, except for the `chunks or [text]` fallback, which fires
exactly when the input is a single indivisible (whitespace-only) character
run and returns the original text unchanged.  (For `max_chars = 0` the
Python code raises `ValueError` out of `range()`, hence `1 ≤ max_chars`.) -/
theorem chunk_length_bound (text : List Char) (max_chars : Nat) (hm : 1 ≤ max_chars) :
    ∀ ch ∈ split_into_chunks text max_chars,
      ch.length ≤ max_chars ∨ (pyStrip text = [] ∧ ch = text) := by
  intro ch hch
  unfold split_into_chunks at hch
  split at hch
  · rename_i hempty
    rcases List.mem_singleton.mp hch with rfl
    right
    refine ⟨?_, rfl⟩
    by_contra hstrip
    rcases sentenceSplit_exists_content hstrip with ⟨p, hp, hpne⟩
    have hcur : (chunkAccum max_chars (sentenceSplit (pyStrip ch))).current ≠ [] :=
      chunkAccum_current _ ⟨p, hp, split_unit_ne_nil hpne⟩
    have : flushChunks (chunkAccum max_chars (sentenceSplit (pyStrip ch))) ≠ [] := by
      unfold flushChunks
      rw [if_neg hcur]
      simp
    exact this hempty
  · left
    exact flushChunks_length (chunkAccum_inv _) ch hch

/-- Witness for `chunk_length_bound` at a concrete input. -/
theorem chunk_length_bound_witness :
    ("ab cd".toList).length ≤ 5 ∨
      (pyStrip ("ab cd ef".toList) = [] ∧ ("ab cd".toList) = ("ab cd ef".toList)) :=
  chunk_length_bound ("ab cd ef".toList) 5 (by decide) ("ab cd".toList) (by decide)

example : normalize_url ("http://a.com/x/".toList) = ("http://a.com/x".toList) := by decide

example : normalize_url ("http://a.com/x#y".toList) = ("http://a.com/x".toList) := by decide

example : normalize_url ("HTTP://A.com/p?q=1#frag".toList) = ("http://A.com/p?q=1".toList) := by
  decide

example : normalize_url ("http://a.com/x;p".toList) = ("http://a.com/x;p".toList) := by decide

example : same_domain ("https://a.com/x".toList) ("https://a.com/y".toList) = true := by decide

example : same_domain ("https://sub.a.com".toList) ("https://a.com".toList) = false := by decide

/-! ### Support lemmas for the URL-normalization identities -/

theorem splitOnFirst?_cons (sep c : Char) (rest : List Char) :
    splitOnFirst? sep (c :: rest) =
      if c = sep then some ([], rest)
      else (splitOnFirst? sep rest).map (fun p => (c :: p.1, p.2)) := rfl

theorem splitOnFirst?_eq_none_iff {sep : Char} {s : List Char} :
    splitOnFirst? sep s = none ↔ sep ∉ s := by
  induction s with
  | nil => simp [splitOnFirst?]
  | cons c rest ih =>
    rw [splitOnFirst?_cons]
    by_cases hc : c = sep
    · subst hc; simp
    · rw [if_neg hc, Option.map_eq_none', ih]
      simp only [List.mem_cons]
      constructor
      · intro h hmem
        rcases hmem with hmem | hmem
        · exact hc hmem.symm
        · exact h hmem
      · intro h hmem
        exact h (Or.inr hmem)

theorem splitOnFirst?_append_left {sep : Char} {a x y : List Char}
    (h : splitOnFirst? sep a = some (x, y)) (b : List Char) :
    splitOnFirst? sep (a ++ b) = some (x, y ++ b) := by
  induction a generalizing x with
  | nil => simp [splitOnFirst?] at h
  | cons c rest ih =>
    rw [splitOnFirst?_cons] at h
    rw [List.cons_append, splitOnFirst?_cons]
    by_cases hc : c = sep
    · rw [if_pos hc] at h ⊢
      injection h with h
      injection h with h1 h2
      subst h1; subst h2
      rfl
    · rw [if_neg hc] at h ⊢
      cases hrec : splitOnFirst? sep rest with
      | none => rw [hrec] at h; simp at h
      | some p =>
        rw [hrec] at h
        simp only [Option.map_some'] at h
        injection h with h
        cases p with
        | mk p1 p2 =>
          have h1 : c :: p1 = x := congrArg Prod.fst h
          have h2 : p2 = y := congrArg Prod.snd h
          rw [ih (h2 ▸ hrec), Option.map_some']
          rw [← h1, ← h2]

theorem splitOnFirst?_append_right {sep : Char} {a : List Char}
    (h : sep ∉ a) (b : List Char) :
    splitOnFirst? sep (a ++ b) =
      (splitOnFirst? sep b).map (fun p => (a ++ p.1, p.2)) := by
  induction a with
  | nil =>
    simp only [List.nil_append]
    cases hb : splitOnFirst? sep b with
    | none => rfl
    | some p => simp
  | cons c rest ih =>
    have hc : c ≠ sep := fun hcc => h (hcc ▸ List.mem_cons_self c rest)
    have hrest : sep ∉ rest := fun hm => h (List.mem_cons_of_mem c hm)
    rw [List.cons_append, splitOnFirst?_cons]
    rw [if_neg hc, ih hrest]
    cases hb : splitOnFirst? sep b with
    | none => rfl
    | some p => simp

theorem splitOnFirst?_some_spec {sep : Char} {s x y : List Char}
    (h : splitOnFirst? sep s = some (x, y)) : s = x ++ sep :: y ∧ sep ∉ x := by
  induction s generalizing x with
  | nil => simp [splitOnFirst?] at h
  | cons c rest ih =>
    rw [splitOnFirst?_cons] at h
    by_cases hc : c = sep
    · rw [if_pos hc] at h
      injection h with h
      injection h with h1 h2
      subst hc; subst h1; subst h2
      simp
    · rw [if_neg hc] at h
      cases hrec : splitOnFirst? sep rest with
      | none => rw [hrec] at h; simp at h
      | some p =>
        rw [hrec] at h
        simp only [Option.map_some'] at h
        injection h with h
        cases p with
        | mk p1 p2 =>
          have h1 : c :: p1 = x := congrArg Prod.fst h
          have h2 : p2 = y := congrArg Prod.snd h
          rcases ih (h2 ▸ hrec) with ⟨hs, hnm⟩
          subst h1
          refine ⟨by rw [hs]; rfl, ?_⟩
          intro hmem
          rcases List.mem_cons.mp hmem with hmem | hmem
          · exact hc hmem.symm
          · exact hnm hmem

theorem takeWhile_append_of_ex {p : Char → Bool} {a : List Char}
    (h : ∃ c ∈ a, p c = false) (b : List Char) :
    (a ++ b).takeWhile p = a.takeWhile p ∧ (a ++ b).dropWhile p = a.dropWhile p ++ b := by
  induction a with
  | nil => simp at h
  | cons c rest ih =>
    rw [List.cons_append, List.takeWhile_cons, List.takeWhile_cons,
      List.dropWhile_cons, List.dropWhile_cons]
    by_cases hc : p c = true
    · rw [if_pos hc, if_pos hc, if_pos hc, if_pos hc]
      rcases h with ⟨d, hd, hdp⟩
      rcases List.mem_cons.mp hd with rfl | hd
      · rw [hc] at hdp; exact absurd hdp (by simp)
      · rcases ih ⟨d, hd, hdp⟩ with ⟨h1, h2⟩
        exact ⟨by rw [h1], by rw [h2]⟩
    · rw [if_neg hc, if_neg hc, if_neg hc, if_neg hc]
      exact ⟨rfl, rfl⟩

theorem takeWhile_append_of_all {p : Char → Bool} {a : List Char}
    (h : ∀ c ∈ a, p c = true) (b : List Char) :
    (a ++ b).takeWhile p = a ++ b.takeWhile p ∧ (a ++ b).dropWhile p = b.dropWhile p := by
  induction a with
  | nil => simp
  | cons c rest ih =>
    have hc : p c = true := h c (List.mem_cons_self c rest)
    rw [List.cons_append, List.takeWhile_cons, List.dropWhile_cons]
    rw [if_pos hc, if_pos hc]
    rcases ih (fun d hd => h d (List.mem_cons_of_mem c hd)) with ⟨h1, h2⟩
    exact ⟨by rw [h1, List.cons_append], h2⟩

/-! ### Stage equations and append lemmas for `urlsplit` -/

theorem urlsplit_scheme (url0 : List Char) :
    (urlsplit url0).scheme = (splitScheme (pyCleanUrl url0)).1 := rfl

theorem urlsplit_netloc (url0 : List Char) :
    (urlsplit url0).netloc = (splitNetloc (splitScheme (pyCleanUrl url0)).2).1 := rfl

theorem urlsplit_path (url0 : List Char) :
    (urlsplit url0).path =
      (splitQuery (splitFragment (splitNetloc (splitScheme (pyCleanUrl url0)).2).2).1).1 := rfl

theorem urlsplit_query (url0 : List Char) :
    (urlsplit url0).query =
      (splitQuery (splitFragment (splitNetloc (splitScheme (pyCleanUrl url0)).2).2).1).2 := rfl

theorem urlsplit_fragment (url0 : List Char) :
    (urlsplit url0).fragment =
      (splitFragment (splitNetloc (splitScheme (pyCleanUrl url0)).2).2).2 := rfl

theorem splitScheme_of_none {v : List Char} (h : splitOnFirst? ':' v = none) :
    splitScheme v = ([], v) := by
  unfold splitScheme
  rw [h]

theorem splitScheme_of_some {v a b : List Char} (h : splitOnFirst? ':' v = some (a, b)) :
    splitScheme v =
      if headIsAlpha a ∧ a.all isSchemeChar then (a.map Char.toLower, b) else ([], v) := by
  unfold splitScheme
  rw [h]

theorem isSchemeChar_of_isAlpha {c : Char} (h : c.isAlpha = true) : isSchemeChar c = true := by
  simp [isSchemeChar, h]

/-- Appending a suffix that begins with a non-scheme, non-colon character
changes only the remainder of the scheme split. -/
theorem splitScheme_append_nonscheme (v : List Char) {c : Char} (w : List Char)
    (hc1 : isSchemeChar c = false) (hc2 : c ≠ ':') :
    splitScheme (v ++ c :: w) = ((splitScheme v).1, (splitScheme v).2 ++ c :: w) := by
  have hcalpha : c.isAlpha = false := by
    cases hca : c.isAlpha
    · rfl
    · rw [isSchemeChar_of_isAlpha hca] at hc1; cases hc1
  cases hsp : splitOnFirst? ':' v with
  | some p =>
    rcases p with ⟨a, b⟩
    rw [splitScheme_of_some hsp, splitScheme_of_some (splitOnFirst?_append_left hsp (c :: w))]
    by_cases hcond : headIsAlpha a = true ∧ a.all isSchemeChar = true
    · rw [if_pos hcond, if_pos hcond]
    · rw [if_neg hcond, if_neg hcond]
  | none =>
    have hnm : ':' ∉ v := splitOnFirst?_eq_none_iff.mp hsp
    have happ := splitOnFirst?_append_right hnm (c :: w)
    rw [splitOnFirst?_cons, if_neg hc2] at happ
    rw [splitScheme_of_none hsp]
    cases hw : splitOnFirst? ':' w with
    | none =>
      rw [hw] at happ
      simp only [Option.map_none'] at happ
      rw [splitScheme_of_none happ]
    | some q =>
      rcases q with ⟨p1, p2⟩
      rw [hw] at happ
      simp only [Option.map_some'] at happ
      rw [splitScheme_of_some happ, if_neg ?_]
      intro hcond
      cases v with
      | nil =>
        have h1 : headIsAlpha ([] ++ c :: p1) = c.isAlpha := rfl
        rw [h1, hcalpha] at hcond
        exact absurd hcond.1 (by simp)
      | cons d v' =>
        have hmem : c ∈ (d :: v') ++ c :: p1 :=
          List.mem_append_right _ (List.mem_cons_self _ _)
        have hall := List.all_eq_true.mp hcond.2 c hmem
        rw [hc1] at hall
        exact absurd hall (by simp)

theorem splitNetloc_of_take2 {u : List Char} (h : u.take 2 = ['/', '/']) :
    splitNetloc u =
      ((u.drop 2).takeWhile (fun c => !isNetlocDelim c),
        (u.drop 2).dropWhile (fun c => !isNetlocDelim c)) := by
  unfold splitNetloc
  rw [if_pos h]

theorem splitNetloc_of_not_take2 {u : List Char} (h : ¬u.take 2 = ['/', '/']) :
    splitNetloc u = ([], u) := by
  unfold splitNetloc
  rw [if_neg h]

/-- Core of the netloc append lemmas: appending a suffix that starts with
a netloc delimiter after a `//`-prefixed remainder shifts the suffix into
the post-netloc remainder. -/
theorem splitNetloc_append_delim_core {c : Char} (hc : isNetlocDelim c = true)
    (rest w : List Char) :
    splitNetloc (('/' :: '/' :: rest) ++ c :: w) =
      ((splitNetloc ('/' :: '/' :: rest)).1,
        (splitNetloc ('/' :: '/' :: rest)).2 ++ c :: w) := by
  have h2l : (('/' :: '/' :: rest) ++ c :: w).take 2 = ['/', '/'] := rfl
  have h2r : ('/' :: '/' :: rest : List Char).take 2 = ['/', '/'] := rfl
  rw [splitNetloc_of_take2 h2l, splitNetloc_of_take2 h2r]
  have hdrop : (('/' :: '/' :: rest) ++ c :: w).drop 2 = rest ++ c :: w := rfl
  have hdrop2 : ('/' :: '/' :: rest : List Char).drop 2 = rest := rfl
  rw [hdrop, hdrop2]
  by_cases hex : ∃ d ∈ rest, (fun x => !isNetlocDelim x) d = false
  · rcases takeWhile_append_of_ex hex (c :: w) with ⟨h1, h2⟩
    rw [h1, h2]
  · push_neg at hex
    have hall : ∀ d ∈ rest, (fun x => !isNetlocDelim x) d = true := by
      intro d hd
      cases hdd : (fun x => !isNetlocDelim x) d
      · exact absurd hdd (hex d hd)
      · rfl
    rcases takeWhile_append_of_all hall (c :: w) with ⟨h1, h2⟩
    rw [h1, h2]
    have htw : (c :: w).takeWhile (fun x => !isNetlocDelim x) = [] := by
      rw [List.takeWhile_cons]
      simp [hc]
    have hdw : (c :: w).dropWhile (fun x => !isNetlocDelim x) = c :: w := by
      rw [List.dropWhile_cons]
      simp [hc]
    rw [htw, hdw]
    have h3 : rest.takeWhile (fun x => !isNetlocDelim x) = rest := by
      rcases takeWhile_append_of_all hall [] with ⟨h4, _⟩
      simpa using h4
    have h5 : rest.dropWhile (fun x => !isNetlocDelim x) = [] :=
      List.dropWhile_eq_nil_iff.mpr hall
    rw [h3, h5]
    simp

theorem take2_shape {r : List Char} (h2 : r.take 2 = ['/', '/']) :
    ∃ rest, r = '/' :: '/' :: rest := by
  cases r with
  | nil => simp at h2
  | cons a r' =>
    cases r' with
    | nil => simp at h2
    | cons b rest =>
      have h3 : ([a, b] : List Char) = ['/', '/'] := h2
      rw [List.cons_eq_cons, List.cons_eq_cons] at h3
      exact ⟨rest, by rw [h3.1, h3.2.1]⟩

/-- Appending `#frag` after a non-`//`-starting remainder cannot create a
netloc, and after a `//` one it lands after the netloc. -/
theorem splitNetloc_append_hash (r w : List Char) :
    splitNetloc (r ++ '#' :: w) = ((splitNetloc r).1, (splitNetloc r).2 ++ '#' :: w) := by
  by_cases h2 : r.take 2 = ['/', '/']
  · obtain ⟨rest, rfl⟩ := take2_shape h2
    exact splitNetloc_append_delim_core (by decide) rest w
  · have h2' : ¬(r ++ '#' :: w).take 2 = ['/', '/'] := by
      cases r with
      | nil =>
        intro hcon
        have h3 : ('#' :: w.take 1 : List Char) = ['/', '/'] := hcon
        rw [List.cons_eq_cons] at h3
        exact absurd h3.1 (by decide)
      | cons a r' =>
        cases r' with
        | nil =>
          intro hcon
          have h3 : ([a, '#'] : List Char) = ['/', '/'] := hcon
          rw [List.cons_eq_cons, List.cons_eq_cons] at h3
          exact absurd h3.2.1 (by decide)
        | cons b r'' =>
          intro hcon
          exact h2 hcon
    rw [splitNetloc_of_not_take2 h2, splitNetloc_of_not_take2 h2']

/-- Appending a single `/` after a remainder other than `"/"` keeps the
netloc decision and shifts the slash into the post-netloc remainder. -/
theorem splitNetloc_append_slash (r : List Char) (hr : r ≠ ['/']) :
    splitNetloc (r ++ ['/']) = ((splitNetloc r).1, (splitNetloc r).2 ++ ['/']) := by
  by_cases h2 : r.take 2 = ['/', '/']
  · obtain ⟨rest, rfl⟩ := take2_shape h2
    exact splitNetloc_append_delim_core (by decide) rest []
  · have h2' : ¬(r ++ ['/']).take 2 = ['/', '/'] := by
      cases r with
      | nil =>
        intro hcon
        exact absurd (hcon : (['/'] : List Char) = ['/', '/']) (by decide)
      | cons a r' =>
        cases r' with
        | nil =>
          intro hcon
          have h3 : ([a, '/'] : List Char) = ['/', '/'] := hcon
          rw [List.cons_eq_cons] at h3
          exact hr (by rw [h3.1])
        | cons b r'' =>
          intro hcon
          exact h2 hcon
    rw [splitNetloc_of_not_take2 h2, splitNetloc_of_not_take2 h2']

theorem splitFragment_of_none {x : List Char} (h : splitOnFirst? '#' x = none) :
    splitFragment x = (x, []) := by
  unfold splitFragment
  rw [h]

theorem splitFragment_of_some {x a b : List Char} (h : splitOnFirst? '#' x = some (a, b)) :
    splitFragment x = (a, b) := by
  unfold splitFragment
  rw [h]

theorem splitQuery_of_none {x : List Char} (h : splitOnFirst? '?' x = none) :
    splitQuery x = (x, []) := by
  unfold splitQuery
  rw [h]

theorem splitQuery_of_some {x a b : List Char} (h : splitOnFirst? '?' x = some (a, b)) :
    splitQuery x = (a, b) := by
  unfold splitQuery
  rw [h]

/-- Appending `#frag` never changes the pre-fragment part. -/
theorem splitFragment_append_hash (x w : List Char) :
    (splitFragment (x ++ '#' :: w)).1 = (splitFragment x).1 := by
  cases hx : splitOnFirst? '#' x with
  | some p =>
    rcases p with ⟨a, b⟩
    rw [splitFragment_of_some hx, splitFragment_of_some (splitOnFirst?_append_left hx _)]
  | none =>
    have happ := splitOnFirst?_append_right (splitOnFirst?_eq_none_iff.mp hx) ('#' :: w)
    rw [splitOnFirst?_cons, if_pos rfl] at happ
    simp only [Option.map_some'] at happ
    rw [splitFragment_of_none hx, splitFragment_of_some happ]
    simp

/-- Appending one `/` to a fragment-free string keeps it fragment-free. -/
theorem splitFragment_append_slash_of_no_hash {x : List Char} (hx : splitOnFirst? '#' x = none) :
    splitFragment (x ++ ['/']) = (x ++ ['/'], []) := by
  refine splitFragment_of_none ?_
  rw [splitOnFirst?_eq_none_iff] at hx ⊢
  intro hmem
  rcases List.mem_append.mp hmem with hmem | hmem
  · exact hx hmem
  · rcases List.mem_singleton.mp hmem with h
    exact absurd h (by decide)

/-- Appending one `/` to a string with a fragment extends the fragment. -/
theorem splitFragment_append_slash_of_hash {x a b : List Char}
    (hx : splitOnFirst? '#' x = some (a, b)) :
    splitFragment (x ++ ['/']) = (a, b ++ ['/']) :=
  splitFragment_of_some (splitOnFirst?_append_left hx _)

/-- The lstrip-and-unsafe-byte cleaning distributes over appending a
suffix that begins with a safe printable character. -/
theorem pyCleanUrl_append_keep {c : Char} (hC0 : isC0OrSpace c = false)
    (hUnsafe : isUnsafeUrlByte c = false) (u w : List Char) :
    pyCleanUrl (u ++ c :: w) =
      pyCleanUrl u ++ c :: (w.filter (fun d => !isUnsafeUrlByte d)) := by
  unfold pyCleanUrl
  by_cases hall : ∀ d ∈ u, isC0OrSpace d = true
  · rw [(takeWhile_append_of_all hall (c :: w)).2, List.dropWhile_eq_nil_iff.mpr hall]
    rw [List.dropWhile_cons, if_neg (by rw [hC0]; exact Bool.false_ne_true)]
    rw [List.filter_cons, if_pos (by rw [hUnsafe]; rfl)]
    rfl
  · push_neg at hall
    rcases hall with ⟨d, hd, hdne⟩
    have hex : ∃ d ∈ u, isC0OrSpace d = false := ⟨d, hd, by
      cases hdd : isC0OrSpace d
      · rfl
      · exact absurd hdd hdne⟩
    rw [(takeWhile_append_of_ex hex (c :: w)).2, List.filter_append]
    rw [List.filter_cons, if_pos (by rw [hUnsafe]; rfl)]

/-- Appending `#frag` leaves every non-fragment `urlsplit` component
unchanged (the abstract core of the spec's fragment identity). -/
theorem urlsplit_append_frag (u frag : List Char) :
    (urlsplit (u ++ '#' :: frag)).scheme = (urlsplit u).scheme ∧
      (urlsplit (u ++ '#' :: frag)).netloc = (urlsplit u).netloc ∧
      (urlsplit (u ++ '#' :: frag)).path = (urlsplit u).path ∧
      (urlsplit (u ++ '#' :: frag)).query = (urlsplit u).query := by
  have hclean := pyCleanUrl_append_keep (c := '#') (by decide) (by decide) u frag
  have hscheme := @splitScheme_append_nonscheme (pyCleanUrl u) '#'
    (frag.filter (fun d => !isUnsafeUrlByte d)) (by decide) (by decide)
  have hnet := splitNetloc_append_hash (splitScheme (pyCleanUrl u)).2
    (frag.filter (fun d => !isUnsafeUrlByte d))
  have hfrag := splitFragment_append_hash (splitNetloc (splitScheme (pyCleanUrl u)).2).2
    (frag.filter (fun d => !isUnsafeUrlByte d))
  refine ⟨?_, ?_, ?_, ?_⟩
  · rw [urlsplit_scheme, urlsplit_scheme, hclean, hscheme]
  · rw [urlsplit_netloc, urlsplit_netloc, hclean, hscheme]
    dsimp only
    rw [hnet]
  · rw [urlsplit_path, urlsplit_path, hclean, hscheme]
    dsimp only
    rw [hnet]
    dsimp only
    rw [hfrag]
  · rw [urlsplit_query, urlsplit_query, hclean, hscheme]
    dsimp only
    rw [hnet]
    dsimp only
    rw [hfrag]

/-- Appending `#frag` leaves the fragment-cleared `urlparse` result
unchanged. -/
theorem urlparse_append_frag_cleared (u frag : List Char) :
    ({ urlparse (u ++ '#' :: frag) with fragment := [] } : ParseResult) =
      ({ urlparse u with fragment := [] } : ParseResult) := by
  rcases urlsplit_append_frag u frag with ⟨h1, h2, h3, h4⟩
  unfold urlparse
  rw [h1, h2, h3, h4]

/-- `normalize(u + "#frag") = normalize(u)` for every URL `u` and every
fragment text. -/
theorem normalize_url_append_frag (u frag : List Char) :
    normalize_url (u ++ '#' :: frag) = normalize_url u := by
  unfold normalize_url
  rw [urlparse_append_frag_cleared u frag]

/-! ### Support for the trailing-slash side of the normalization claim -/

theorem mem_of_getLast?_eq {l : List Char} {a : Char} (h : l.getLast? = some a) : a ∈ l := by
  induction l with
  | nil => simp at h
  | cons c rest ih =>
    cases rest with
    | nil =>
      have hc : c = a := by
        have h1 : (some c : Option Char) = some a := h
        injection h1
      exact hc ▸ List.mem_singleton.mpr rfl
    | cons d t =>
      rw [List.getLast?_cons_cons] at h
      exact List.mem_cons_of_mem c (ih h)

theorem suffix_getLast?_eq {x v : List Char} (h : x <:+ v) (hx : x ≠ []) :
    v.getLast? = x.getLast? := by
  rcases h with ⟨p, rfl⟩
  exact List.getLast?_append_of_ne_nil p hx

theorem splitOnFirst?_snd_suffix {sep : Char} {s a b : List Char}
    (h : splitOnFirst? sep s = some (a, b)) : b <:+ s := by
  rcases splitOnFirst?_some_spec h with ⟨hs, _⟩
  exact ⟨a ++ [sep], by rw [hs]; simp⟩

theorem splitScheme_snd_suffix (v : List Char) : (splitScheme v).2 <:+ v := by
  cases hsp : splitOnFirst? ':' v with
  | none => rw [splitScheme_of_none hsp]
  | some p =>
    rcases p with ⟨a, b⟩
    rw [splitScheme_of_some hsp]
    by_cases hc : headIsAlpha a = true ∧ a.all isSchemeChar = true
    · rw [if_pos hc]
      exact splitOnFirst?_snd_suffix hsp
    · rw [if_neg hc]

theorem splitNetloc_snd_suffix (r : List Char) : (splitNetloc r).2 <:+ r := by
  by_cases h2 : r.take 2 = ['/', '/']
  · obtain ⟨rest, rfl⟩ := take2_shape h2
    rw [splitNetloc_of_take2 h2]
    have hd : rest.dropWhile (fun c => !isNetlocDelim c) <:+ rest := List.dropWhile_suffix _
    exact hd.trans ⟨['/', '/'], rfl⟩
  · rw [splitNetloc_of_not_take2 h2]

/-- Every character of the extracted netloc is a non-delimiter. -/
theorem splitNetloc_fst_no_slash (r : List Char) : '/' ∉ (splitNetloc r).1 := by
  by_cases h2 : r.take 2 = ['/', '/']
  · rw [splitNetloc_of_take2 h2]
    intro hmem
    have := List.mem_takeWhile_imp hmem
    simp [isNetlocDelim] at this
  · rw [splitNetloc_of_not_take2 h2]
    simp

theorem splitOnLast?_some_spec {sep : Char} {s a b : List Char}
    (h : splitOnLast? sep s = some (a, b)) : s = a ++ sep :: b ∧ sep ∉ b := by
  unfold splitOnLast? at h
  cases hr : splitOnFirst? sep s.reverse with
  | none => rw [hr] at h; cases h
  | some q =>
    rcases q with ⟨p, t⟩
    rw [hr] at h
    injection h with h
    have ha : t.reverse = a := congrArg Prod.fst h
    have hb : p.reverse = b := congrArg Prod.snd h
    rcases splitOnFirst?_some_spec hr with ⟨hs, hnm⟩
    constructor
    · have : s = (p ++ sep :: t).reverse := by
        rw [← hs, List.reverse_reverse]
      rw [this, List.reverse_append, List.reverse_cons]
      rw [← ha, ← hb]
      simp
    · rw [← hb]
      intro hmem
      exact hnm (List.mem_reverse.mp hmem)

theorem splitOnLast?_concat {sep : Char} (y : List Char) :
    splitOnLast? sep (y ++ [sep]) = some (y, []) := by
  unfold splitOnLast?
  rw [List.reverse_append]
  have h1 : ([sep] : List Char).reverse ++ y.reverse = sep :: y.reverse := by simp
  rw [h1, splitOnFirst?_cons, if_pos rfl]
  simp

theorem splitparams_eq_ss {x before after a1 a2 : List Char}
    (hL : splitOnLast? '/' x = some (before, after))
    (hF : splitOnFirst? ';' after = some (a1, a2)) :
    splitparams x = (before ++ '/' :: a1, a2) := by
  simp only [splitparams, hL, hF]

theorem splitparams_eq_sn {x before after : List Char}
    (hL : splitOnLast? '/' x = some (before, after))
    (hF : splitOnFirst? ';' after = none) :
    splitparams x = (x, []) := by
  simp only [splitparams, hL, hF]

theorem splitparams_eq_ns {x a1 a2 : List Char}
    (hL : splitOnLast? '/' x = none)
    (hF : splitOnFirst? ';' x = some (a1, a2)) :
    splitparams x = (a1, a2) := by
  simp only [splitparams, hL, hF]

theorem splitparams_eq_nn {x : List Char}
    (hL : splitOnLast? '/' x = none)
    (hF : splitOnFirst? ';' x = none) :
    splitparams x = (x, []) := by
  simp only [splitparams, hL, hF]

/-- Splitting params off a path not ending in `;` and re-attaching them
is the identity. -/
theorem splitparams_reassemble {x : List Char} (hlast : x.getLast? ≠ some ';') :
    (if (splitparams x).2 ≠ [] then (splitparams x).1 ++ ';' :: (splitparams x).2
      else (splitparams x).1) = x := by
  cases hL : splitOnLast? '/' x with
  | some p =>
    rcases p with ⟨before, after⟩
    rcases splitOnLast?_some_spec hL with ⟨hx, _⟩
    cases hF : splitOnFirst? ';' after with
    | some q =>
      rcases q with ⟨a1, a2⟩
      rcases splitOnFirst?_some_spec hF with ⟨ha, _⟩
      have ha2 : a2 ≠ [] := by
        intro hcon
        subst hcon
        apply hlast
        rw [hx, ha]
        have hshape : before ++ '/' :: (a1 ++ [';']) = (before ++ '/' :: a1) ++ [';'] := by
          simp
        rw [hshape]
        exact List.getLast?_concat _
      rw [splitparams_eq_ss hL hF]
      dsimp only
      rw [if_pos ha2]
      rw [hx, ha]
      simp
    | none =>
      rw [splitparams_eq_sn hL hF]
      simp
  | none =>
    cases hF : splitOnFirst? ';' x with
    | some q =>
      rcases q with ⟨a1, a2⟩
      rcases splitOnFirst?_some_spec hF with ⟨ha, _⟩
      have ha2 : a2 ≠ [] := by
        intro hcon
        subst hcon
        apply hlast
        rw [ha]
        exact List.getLast?_concat _
      rw [splitparams_eq_ns hL hF]
      dsimp only
      rw [if_pos ha2, ha]
    | none =>
      rw [splitparams_eq_nn hL hF]
      simp

theorem pathWithParams_eq_self {s x : List Char} (hlast : x.getLast? ≠ some ';') :
    pathWithParams s x = x := by
  unfold pathWithParams
  by_cases hg : s ∈ usesParams ∧ ';' ∈ x
  · rw [if_pos hg]
    exact splitparams_reassemble hlast
  · rw [if_neg hg]

theorem pathWithParams_concat_slash (s x : List Char) :
    pathWithParams s (x ++ ['/']) = x ++ ['/'] := by
  unfold pathWithParams
  by_cases hg : s ∈ usesParams ∧ ';' ∈ x ++ ['/']
  · rw [if_pos hg]
    have hsp : splitparams (x ++ ['/']) = (x ++ ['/'], []) := by
      have hL : splitOnLast? '/' (x ++ ['/']) = some (x, []) := splitOnLast?_concat x
      have hF : splitOnFirst? ';' ([] : List Char) = none := rfl
      exact splitparams_eq_sn hL hF
    rw [hsp]
    simp
  · rw [if_neg hg]

theorem withQuery_concat_slash (q B : List Char) (hq : q ≠ []) :
    withQuery (q ++ ['/']) B = withQuery q B ++ ['/'] := by
  unfold withQuery
  rw [if_pos (by simp), if_pos hq]
  simp

theorem withScheme_concat (s a : List Char) (b : List Char) :
    withScheme s (a ++ b) = withScheme s a ++ b := by
  unfold withScheme
  by_cases hs : s ≠ []
  · rw [if_pos hs, if_pos hs]
    simp
  · rw [if_neg hs, if_neg hs]

theorem take2_concat_slash_iff {X : List Char} (hX : X ≠ ['/']) :
    (X ++ ['/']).take 2 = ['/', '/'] ↔ X.take 2 = ['/', '/'] := by
  constructor
  · intro h
    cases X with
    | nil =>
      exact absurd (h : (['/'] : List Char) = ['/', '/']) (by decide)
    | cons a X' =>
      cases X' with
      | nil =>
        have h3 : ([a, '/'] : List Char) = ['/', '/'] := h
        rw [List.cons_eq_cons] at h3
        exact absurd (by rw [h3.1]) hX
      | cons b X'' => exact h
  · intro h
    obtain ⟨rest, rfl⟩ := take2_shape h
    rfl

/-- Appending one `/` to the path commutes with the netloc stage of
`urlunsplit`, provided the path is not exactly `"/"`. -/
theorem unsplitNetlocStage_concat_slash (s n X : List Char) (hX : X ≠ ['/']) :
    unsplitNetlocStage s n (X ++ ['/']) = unsplitNetlocStage s n X ++ ['/'] := by
  unfold unsplitNetlocStage
  have htake := take2_concat_slash_iff hX
  by_cases hC : n ≠ [] ∨ (s ≠ [] ∧ s ∈ usesNetloc ∧ X.take 2 ≠ ['/', '/'])
  · have hC' : n ≠ [] ∨ (s ≠ [] ∧ s ∈ usesNetloc ∧ (X ++ ['/']).take 2 ≠ ['/', '/']) := by
      rcases hC with hC | ⟨hs, hu, ht⟩
      · exact Or.inl hC
      · exact Or.inr ⟨hs, hu, fun hcon => ht (htake.mp hcon)⟩
    rw [if_pos hC, if_pos hC']
    cases X with
    | nil =>
      have hinner : ¬((['/'] : List Char) ≠ [] ∧ (['/'] : List Char).head? ≠ some '/') := by
        simp
      have hinner2 : ¬(([] : List Char) ≠ [] ∧ ([] : List Char).head? ≠ some '/') := by
        simp
      rw [List.nil_append, if_neg hinner, if_neg hinner2]
      simp
    | cons c X' =>
      by_cases hd : (c :: X' : List Char).head? ≠ some '/'
      · have hd' : ((c :: X') ++ ['/'] : List Char).head? ≠ some '/' := by
          simpa using hd
        rw [if_pos ⟨by simp, hd'⟩, if_pos ⟨by simp, hd⟩]
        simp
      · have hd' : ¬(((c :: X') ++ ['/'] : List Char) ≠ [] ∧
            ((c :: X') ++ ['/'] : List Char).head? ≠ some '/') := by
          push_neg at hd ⊢
          intro _
          simpa using hd
        rw [if_neg hd', if_neg (by push_neg at hd ⊢; intro _; exact hd)]
        simp
  · have hC' : ¬(n ≠ [] ∨ (s ≠ [] ∧ s ∈ usesNetloc ∧ (X ++ ['/']).take 2 ≠ ['/', '/'])) := by
      push_neg at hC ⊢
      refine ⟨hC.1, ?_⟩
      intro hs hu
      have := hC.2 hs hu
      rw [← htake] at this
      simpa using this
    rw [if_neg hC, if_neg hC']

theorem getLast?_append_cons_ne_nil {y : List Char} {c : Char} {q : List Char} (hq : q ≠ []) :
    (y ++ c :: q).getLast? = q.getLast? := by
  have hshape : y ++ c :: q = (y ++ [c]) ++ q := by simp
  rw [hshape]
  exact List.getLast?_append_of_ne_nil _ hq

/-- The last character of a fragment-free `urlunsplit` output is never
`/`, given that the query and path do not end in `/`, the netloc cannot
contain `/`, and the degenerate `scheme://`-only case is excluded. -/
theorem urlunsplit_no_frag_getLast (s n X q : List Char)
    (hn : '/' ∉ n)
    (hX : X.getLast? ≠ some '/')
    (hq : q.getLast? ≠ some '/')
    (hE : X = [] → q = [] → n = [] → ¬(s ≠ [] ∧ s ∈ usesNetloc)) :
    (urlunsplit s n X q []).getLast? ≠ some '/' := by
  unfold urlunsplit withFragment
  rw [if_neg (by simp)]
  by_cases hq0 : q = []
  · subst hq0
    unfold withQuery
    rw [if_neg (by simp)]
    unfold withScheme unsplitNetlocStage
    by_cases hC : n ≠ [] ∨ (s ≠ [] ∧ s ∈ usesNetloc ∧ X.take 2 ≠ ['/', '/'])
    · rw [if_pos hC]
      cases hX0 : X with
      | nil =>
        have hn0 : n ≠ [] := by
          intro hn0
          rcases hC with hC | hC
          · exact hC hn0
          · exact hE hX0 rfl hn0 ⟨hC.1, hC.2.1⟩
        have hinner : ¬(([] : List Char) ≠ [] ∧ ([] : List Char).head? ≠ some '/') := by
          simp
        rw [if_neg hinner]
        have hbase : ('/' :: '/' :: (n ++ ([] : List Char))).getLast? = n.getLast? := by
          rw [List.append_nil]
          exact getLast?_append_cons_ne_nil (y := ['/']) hn0
        by_cases hs : s ≠ []
        · rw [if_pos hs]
          rw [getLast?_append_cons_ne_nil (by simp : ('/' :: '/' :: (n ++ ([] : List Char))) ≠ [])]
          rw [hbase]
          intro hcon
          exact hn (mem_of_getLast?_eq hcon)
        · rw [if_neg hs, hbase]
          intro hcon
          exact hn (mem_of_getLast?_eq hcon)
      | cons c X' =>
        rw [← hX0]
        have hXne : X ≠ [] := by rw [hX0]; simp
        have hlastX : ∀ y : List Char, (y ++ X).getLast? = X.getLast? :=
          fun y => List.getLast?_append_of_ne_nil y hXne
        by_cases hinner : X ≠ [] ∧ X.head? ≠ some '/'
        · rw [if_pos hinner]
          have h1 : '/' :: '/' :: (n ++ '/' :: X) = (('/' :: '/' :: (n ++ ['/'])) ++ X) := by
            simp
          by_cases hs : s ≠ []
          · rw [if_pos hs]
            rw [getLast?_append_cons_ne_nil (by simp), h1, hlastX]
            exact hX
          · rw [if_neg hs, h1, hlastX]
            exact hX
        · rw [if_neg hinner]
          have h1 : '/' :: '/' :: (n ++ X) = (('/' :: '/' :: n) ++ X) := by simp
          by_cases hs : s ≠ []
          · rw [if_pos hs]
            rw [getLast?_append_cons_ne_nil (by simp), h1, hlastX]
            exact hX
          · rw [if_neg hs, h1, hlastX]
            exact hX
    · rw [if_neg hC]
      cases hX0 : X with
      | nil =>
        by_cases hs : s ≠ []
        · rw [if_pos hs]
          have : (s ++ [':']).getLast? = some ':' := List.getLast?_concat s
          rw [show s ++ ':' :: ([] : List Char) = s ++ [':'] from rfl, this]
          intro hcon
          injection hcon with hcon
          exact absurd hcon (by decide)
        · rw [if_neg hs]
          simp
      | cons c X' =>
        rw [← hX0]
        have hXne : X ≠ [] := by rw [hX0]; simp
        by_cases hs : s ≠ []
        · rw [if_pos hs]
          rw [getLast?_append_cons_ne_nil hXne]
          exact hX
        · rw [if_neg hs]
          exact hX
  · unfold withQuery
    rw [if_pos hq0]
    rw [getLast?_append_cons_ne_nil hq0]
    exact hq

theorem urlunsplit_query_ne_getLast (s n X q : List Char) (hq0 : q ≠ [])
    (hq : q.getLast? ≠ some '/') :
    (urlunsplit s n X q []).getLast? ≠ some '/' := by
  unfold urlunsplit withFragment withQuery
  rw [if_neg (show ¬(([] : List Char) ≠ []) by simp), if_pos hq0,
    getLast?_append_cons_ne_nil hq0]
  exact hq

theorem urlunsplit_concat_query (s n X q : List Char) (hq0 : q ≠ []) :
    urlunsplit s n X (q ++ ['/']) [] = urlunsplit s n X q [] ++ ['/'] := by
  unfold urlunsplit withFragment
  rw [if_neg (show ¬(([] : List Char) ≠ []) by simp),
    if_neg (show ¬(([] : List Char) ≠ []) by simp)]
  exact withQuery_concat_slash q _ hq0

theorem urlunsplit_concat_path (s n X : List Char) (hX : X ≠ ['/']) :
    urlunsplit s n (X ++ ['/']) [] [] = urlunsplit s n X [] [] ++ ['/'] := by
  unfold urlunsplit withFragment withQuery
  rw [if_neg (show ¬(([] : List Char) ≠ []) by simp),
    if_neg (show ¬(([] : List Char) ≠ []) by simp),
    if_neg (show ¬(([] : List Char) ≠ []) by simp),
    if_neg (show ¬(([] : List Char) ≠ []) by simp)]
  rw [unsplitNetlocStage_concat_slash s n X hX, withScheme_concat]

theorem strip_slash_invariant {W : List Char} (h : W.getLast? ≠ some '/') :
    (if (W ++ ['/']).getLast? = some '/' then (W ++ ['/']).dropLast else W ++ ['/']) =
      (if W.getLast? = some '/' then W.dropLast else W) := by
  rw [if_pos (List.getLast?_concat W), List.dropLast_concat, if_neg h]

/-- `normalize_url` written over the `urlsplit` components, with the
params re-attachment of `urlunparse` factored through `pathWithParams`. -/
theorem normalize_url_eq (u : List Char) :
    normalize_url u =
      (if (urlunsplit (urlsplit u).scheme (urlsplit u).netloc
            (pathWithParams (urlsplit u).scheme (urlsplit u).path) (urlsplit u).query
            []).getLast? = some '/' then
        (urlunsplit (urlsplit u).scheme (urlsplit u).netloc
          (pathWithParams (urlsplit u).scheme (urlsplit u).path) (urlsplit u).query
          []).dropLast
      else
        urlunsplit (urlsplit u).scheme (urlsplit u).netloc
          (pathWithParams (urlsplit u).scheme (urlsplit u).path) (urlsplit u).query []) := by
  have hW : urlunparse { urlparse u with fragment := [] } =
      urlunsplit (urlsplit u).scheme (urlsplit u).netloc
        (pathWithParams (urlsplit u).scheme (urlsplit u).path) (urlsplit u).query [] := by
    unfold urlunparse urlparse pathWithParams
    dsimp only
    by_cases hg : (urlsplit u).scheme ∈ usesParams ∧ ';' ∈ (urlsplit u).path
    · rw [if_pos hg, if_pos hg, if_pos hg]
    · rw [if_neg hg, if_neg hg, if_neg hg,
        if_neg (show ¬(([] : List Char) ≠ []) by simp)]
  unfold normalize_url
  rw [hW]

/-- `normalize(u + "/") = normalize(u)` whenever the cleaned URL does not
end in `/`, `?` or `;` and is not exactly `scheme:` for a netloc-using
scheme.  (In those four cases the identity genuinely fails on the code:
`"http://a.com/x/"`, `"http://a.com/x?"`, `"http://a.com/x;"`,
`"http:"`.) -/
theorem normalize_url_append_slash (u : List Char)
    (h1 : (pyCleanUrl u).getLast? ≠ some '/')
    (h2 : (pyCleanUrl u).getLast? ≠ some '?')
    (h3 : (pyCleanUrl u).getLast? ≠ some ';')
    (hE : ¬((urlsplit u).scheme ≠ [] ∧ (urlsplit u).scheme ∈ usesNetloc ∧
      (splitScheme (pyCleanUrl u)).2 = [])) :
    normalize_url (u ++ ['/']) = normalize_url u := by
  have hclean : pyCleanUrl (u ++ ['/']) = pyCleanUrl u ++ ['/'] := by
    have h := @pyCleanUrl_append_keep '/' (by decide) (by decide) u []
    exact h
  have hsch := @splitScheme_append_nonscheme (pyCleanUrl u) '/' [] (by decide) (by decide)
  have hr1 : (splitScheme (pyCleanUrl u)).2 ≠ ['/'] := by
    intro hcon
    apply h1
    have hsuf := splitScheme_snd_suffix (pyCleanUrl u)
    rw [hcon] at hsuf
    rw [suffix_getLast?_eq hsuf (by simp)]
    rfl
  have hnet := splitNetloc_append_slash (splitScheme (pyCleanUrl u)).2 hr1
  have hx2suf : (splitNetloc (splitScheme (pyCleanUrl u)).2).2 <:+ pyCleanUrl u :=
    (splitNetloc_snd_suffix _).trans (splitScheme_snd_suffix _)
  have hS : (urlsplit (u ++ ['/'])).scheme = (urlsplit u).scheme := by
    rw [urlsplit_scheme, urlsplit_scheme, hclean, hsch]
  have hN : (urlsplit (u ++ ['/'])).netloc = (urlsplit u).netloc := by
    rw [urlsplit_netloc, urlsplit_netloc, hclean, hsch]
    dsimp only
    rw [hnet]
  cases hhash : splitOnFirst? '#' (splitNetloc (splitScheme (pyCleanUrl u)).2).2 with
  | some p =>
    rcases p with ⟨a, b⟩
    have hfragL := splitFragment_append_slash_of_hash hhash
    have hfragR := splitFragment_of_some hhash
    have hcomp : ({ urlparse (u ++ ['/']) with fragment := [] } : ParseResult) =
        ({ urlparse u with fragment := [] } : ParseResult) := by
      have hP : (urlsplit (u ++ ['/'])).path = (urlsplit u).path := by
        rw [urlsplit_path, urlsplit_path, hclean, hsch]
        dsimp only
        rw [hnet]
        dsimp only
        rw [hfragL, hfragR]
      have hQ : (urlsplit (u ++ ['/'])).query = (urlsplit u).query := by
        rw [urlsplit_query, urlsplit_query, hclean, hsch]
        dsimp only
        rw [hnet]
        dsimp only
        rw [hfragL, hfragR]
      unfold urlparse
      rw [hS, hN, hP, hQ]
    unfold normalize_url
    rw [hcomp]
  | none =>
    have hfragR := splitFragment_of_none hhash
    have hfragL := splitFragment_append_slash_of_no_hash hhash
    cases hq : splitOnFirst? '?' (splitNetloc (splitScheme (pyCleanUrl u)).2).2 with
    | some pq =>
      rcases pq with ⟨aq, q⟩
      have hqR : splitQuery (splitNetloc (splitScheme (pyCleanUrl u)).2).2 = (aq, q) :=
        splitQuery_of_some hq
      have hqL : splitQuery ((splitNetloc (splitScheme (pyCleanUrl u)).2).2 ++ ['/']) =
          (aq, q ++ ['/']) :=
        splitQuery_of_some (splitOnFirst?_append_left hq ['/'])
      have hq0 : q ≠ [] := by
        intro hcon
        subst hcon
        apply h2
        rcases splitOnFirst?_some_spec hq with ⟨hx2, _⟩
        rw [suffix_getLast?_eq hx2suf (by rw [hx2]; simp), hx2]
        rw [show aq ++ '?' :: ([] : List Char) = aq ++ ['?'] from rfl]
        exact List.getLast?_concat aq
      have hqlast : q.getLast? ≠ some '/' := by
        intro hcon
        apply h1
        have hqsuf : q <:+ pyCleanUrl u := (splitOnFirst?_snd_suffix hq).trans hx2suf
        rw [suffix_getLast?_eq hqsuf hq0]
        exact hcon
      have hQR : (urlsplit u).query = q := by
        rw [urlsplit_query, hfragR]
        dsimp only
        rw [hqR]
      have hP : (urlsplit (u ++ ['/'])).path = (urlsplit u).path := by
        rw [urlsplit_path, urlsplit_path, hclean, hsch]
        dsimp only
        rw [hnet]
        dsimp only
        rw [hfragL, hfragR]
        dsimp only
        rw [hqL, hqR]
      have hQ : (urlsplit (u ++ ['/'])).query = (urlsplit u).query ++ ['/'] := by
        rw [hQR, urlsplit_query, hclean, hsch]
        dsimp only
        rw [hnet]
        dsimp only
        rw [hfragL]
        dsimp only
        rw [hqL]
      rw [normalize_url_eq (u ++ ['/']), normalize_url_eq u, hS, hN, hP, hQ]
      rw [urlunsplit_concat_query _ _ _ _ (by rw [hQR]; exact hq0)]
      refine strip_slash_invariant ?_
      rw [hQR]
      exact urlunsplit_query_ne_getLast _ _ _ _ hq0 hqlast
    | none =>
      have hqR := splitQuery_of_none hq
      have hqL : splitQuery ((splitNetloc (splitScheme (pyCleanUrl u)).2).2 ++ ['/']) =
          ((splitNetloc (splitScheme (pyCleanUrl u)).2).2 ++ ['/'], []) := by
        refine splitQuery_of_none ?_
        rw [splitOnFirst?_eq_none_iff] at hq ⊢
        intro hmem
        rcases List.mem_append.mp hmem with hmem | hmem
        · exact hq hmem
        · exact absurd (List.mem_singleton.mp hmem) (by decide)
      have hx2slash : (splitNetloc (splitScheme (pyCleanUrl u)).2).2.getLast? ≠ some '/' := by
        intro hcon
        apply h1
        have hne : (splitNetloc (splitScheme (pyCleanUrl u)).2).2 ≠ [] := by
          intro h0
          rw [h0] at hcon
          simp at hcon
        rw [suffix_getLast?_eq hx2suf hne]
        exact hcon
      have hx2semi : (splitNetloc (splitScheme (pyCleanUrl u)).2).2.getLast? ≠ some ';' := by
        intro hcon
        apply h3
        have hne : (splitNetloc (splitScheme (pyCleanUrl u)).2).2 ≠ [] := by
          intro h0
          rw [h0] at hcon
          simp at hcon
        rw [suffix_getLast?_eq hx2suf hne]
        exact hcon
      have hx2ne : (splitNetloc (splitScheme (pyCleanUrl u)).2).2 ≠ ['/'] := by
        intro hcon
        apply hx2slash
        rw [hcon]
        rfl
      have hPx : (urlsplit u).path = (splitNetloc (splitScheme (pyCleanUrl u)).2).2 := by
        rw [urlsplit_path, hfragR]
        dsimp only
        rw [hqR]
      have hP : (urlsplit (u ++ ['/'])).path = (urlsplit u).path ++ ['/'] := by
        rw [hPx, urlsplit_path, hclean, hsch]
        dsimp only
        rw [hnet]
        dsimp only
        rw [hfragL]
        dsimp only
        rw [hqL]
      have hQn : (urlsplit u).query = [] := by
        rw [urlsplit_query, hfragR]
        dsimp only
        rw [hqR]
      have hQ : (urlsplit (u ++ ['/'])).query = [] := by
        rw [urlsplit_query, hclean, hsch]
        dsimp only
        rw [hnet]
        dsimp only
        rw [hfragL]
        dsimp only
        rw [hqL]
      rw [normalize_url_eq (u ++ ['/']), normalize_url_eq u, hS, hN, hP, hQ, hQn]
      rw [pathWithParams_concat_slash]
      rw [pathWithParams_eq_self
        (show (urlsplit u).path.getLast? ≠ some ';' by rw [hPx]; exact hx2semi)]
      rw [urlunsplit_concat_path _ _ _ (by rw [hPx]; exact hx2ne)]
      refine strip_slash_invariant ?_
      refine urlunsplit_no_frag_getLast _ _ _ _ ?_ ?_ ?_ ?_
      · rw [urlsplit_netloc]
        exact splitNetloc_fst_no_slash _
      · rw [hPx]
        exact hx2slash
      · simp
      · intro hX0 _ hn0 hcon
        apply hE
        refine ⟨hcon.1, hcon.2, ?_⟩
        have hx20 : (splitNetloc (splitScheme (pyCleanUrl u)).2).2 = [] := by
          rw [← hPx]
          exact hX0
        have hn00 : (splitNetloc (splitScheme (pyCleanUrl u)).2).1 = [] := by
          rw [← urlsplit_netloc]
          exact hn0
        by_cases h2t : (splitScheme (pyCleanUrl u)).2.take 2 = ['/', '/']
        · exfalso
          obtain ⟨rest, hrest⟩ := take2_shape h2t
          rw [hrest] at hx20 hn00 h2t
          rw [splitNetloc_of_take2 h2t] at hx20 hn00
          dsimp only at hx20 hn00
          have hd2 : List.drop 2 ('/' :: '/' :: rest) = rest := rfl
          rw [hd2] at hx20 hn00
          have hrest0 : rest = [] := by
            have htd := List.takeWhile_append_dropWhile
              (p := fun c => !isNetlocDelim c) (l := rest)
            rw [hn00, hx20] at htd
            simpa using htd.symm
          apply h1
          have hsuf := splitScheme_snd_suffix (pyCleanUrl u)
          rw [hrest, hrest0] at hsuf
          rw [suffix_getLast?_eq hsuf (by simp)]
          rfl
        · rw [splitNetloc_of_not_take2 h2t] at hx20
          exact hx20

/-- C7 counterexample: `normalize_url` removes exactly one trailing
slash, so for `u = "http://a.com/x/"` (which already ends in `/`),
`normalize(u + "/") = "http://a.com/x/" ≠ "http://a.com/x" =
normalize(u)`, refuting the claim as stated. -/
theorem normalize_url_trailing_slash_counterexample :
    normalize_url (("http://a.com/x/".toList) ++ ['/']) ≠
      normalize_url ("http://a.com/x/".toList) := by
  decide

/-- C7 (amended): `normalize(u + "#frag") = normalize(u)` holds for every
`u` (and every fragment text); `normalize(u + "/") = normalize(u)` holds
whenever the cleaned `u` does not already end in `/` (the case the
counterexample refutes), does not end in `?` or `;` (an empty trailing
query/params delimiter is dropped on one side only), and is not exactly
`scheme:` for a netloc-using scheme (there `urlunsplit` re-adds `//`
asymmetrically). -/
theorem normalize_url_identities (u frag : List Char)
    (h1 : (pyCleanUrl u).getLast? ≠ some '/')
    (h2 : (pyCleanUrl u).getLast? ≠ some '?')
    (h3 : (pyCleanUrl u).getLast? ≠ some ';')
    (hE : ¬((urlsplit u).scheme ≠ [] ∧ (urlsplit u).scheme ∈ usesNetloc ∧
      (splitScheme (pyCleanUrl u)).2 = [])) :
    normalize_url (u ++ '#' :: frag) = normalize_url u ∧
      normalize_url (u ++ ['/']) = normalize_url u :=
  ⟨normalize_url_append_frag u frag, normalize_url_append_slash u h1 h2 h3 hE⟩

/-- Witness for `normalize_url_identities` at a concrete URL. -/
theorem normalize_url_identities_witness :
    normalize_url (("http://a.com/x".toList) ++ '#' :: ("frag".toList)) =
        normalize_url ("http://a.com/x".toList) ∧
      normalize_url (("http://a.com/x".toList) ++ ['/']) =
        normalize_url ("http://a.com/x".toList) :=
  normalize_url_identities ("http://a.com/x".toList) ("frag".toList)
    (by decide) (by decide) (by decide) (by decide)

/-- C10: the throttle's effective interval is `max(0.05,
min_request_interval)` — configured intervals below 0.05 s are silently
clamped up to 0.05 s — and any two consecutively admitted `wait_turn`
calls are at least that interval (hence at least 0.05 s) apart. -/
theorem throttle_clamp_and_min_gap (m t1 t2 : Rat) (s : FetchThrottle)
    (hs : s.interval = (throttleInit m).interval)
    (h2 : canAdmit (wait_turn_step s t1) t2) :
    (throttleInit m).interval = max (mkRat 1 20) m ∧
      (m < mkRat 1 20 → (throttleInit m).interval = mkRat 1 20) ∧
      t1 + max (mkRat 1 20) m ≤ t2 ∧
      t1 + mkRat 1 20 ≤ t2 := by
  have hint : (throttleInit m).interval = max (mkRat 1 20) m := rfl
  have hgap : t1 + max (mkRat 1 20) m ≤ t2 := by
    unfold canAdmit wait_turn_step at h2
    dsimp only at h2
    rw [hs, hint] at h2
    linarith
  refine ⟨hint, ?_, hgap, ?_⟩
  · intro hlt
    rw [hint]
    exact max_eq_left (le_of_lt hlt)
  · have : (mkRat 1 20) ≤ max (mkRat 1 20) m := le_max_left _ _
    linarith

/-- Witness for `throttle_clamp_and_min_gap`: a configured interval of
0.01 s is clamped to 0.05 s and a second admission at t=0.06 s. -/
theorem throttle_clamp_and_min_gap_witness :
    (throttleInit (mkRat 1 100)).interval = max (mkRat 1 20) (mkRat 1 100) ∧
      (mkRat 1 100 < mkRat 1 20 → (throttleInit (mkRat 1 100)).interval = mkRat 1 20) ∧
      (0 : Rat) + max (mkRat 1 20) (mkRat 1 100) ≤ mkRat 3 50 ∧
      (0 : Rat) + mkRat 1 20 ≤ mkRat 3 50 :=
  throttle_clamp_and_min_gap (mkRat 1 100) 0 (mkRat 3 50) (throttleInit (mkRat 1 100)) rfl
    (by simp [canAdmit, wait_turn_step, throttleInit]; decide)

example : pyFloat? ("5".toList) = some 5 := by decide

example : pyFloat? (" 2.5 ".toList) = some (mkRat 5 2) := by decide

example : pyFloat? ("1e2".toList) = some 100 := by decide

example : pyFloat? ("-0.5".toList) = some (-(mkRat 1 2)) := by decide

example : pyFloat? ("Fri, 31 Dec 1999 23:59:59 GMT".toList) = none := by decide

example : pyFloat? ("".toList) = none := by decide

/-- C1: `_process_url` always returns a `(processed, links)` result, and
every page-level failure — robots disallow, network error, rate limit,
non-HTML content, empty extraction, persistence/indexing error — is
converted to the zero-yield result `(0, [])` with nothing persisted; the
only other outcome is one successfully persisted page with count 1. -/
theorem process_url_failure_contract (max_depth : Nat)
    (robots : Option (List Char → Bool)) (resolve : List Char → List Char → List Char)
    (fetch : FetchOutcome) (persist : PersistOutcome)
    (target_url : List Char) (depth : Nat) :
    (((_process_url max_depth robots resolve fetch persist target_url depth).result = (0, []) ∧
        (_process_url max_depth robots resolve fetch persist target_url depth).persisted = false) ∨
      ((_process_url max_depth robots resolve fetch persist target_url depth).result.1 = 1 ∧
        (_process_url max_depth robots resolve fetch persist target_url depth).persisted = true)) ∧
    (fetch = .raises →
      (_process_url max_depth robots resolve fetch persist target_url depth).result = (0, []) ∧
      (_process_url max_depth robots resolve fetch persist target_url depth).persisted = false) ∧
    (∀ st h b, fetch = .response st h b → st = 429 ∨ st = 503 →
      (_process_url max_depth robots resolve fetch persist target_url depth).result = (0, []) ∧
      (_process_url max_depth robots resolve fetch persist target_url depth).persisted = false) ∧
    (∀ st h b, fetch = .response st h b →
      pySubstr ("text/html".toList) (h.content_type.getD []) = false →
      (_process_url max_depth robots resolve fetch persist target_url depth).result = (0, []) ∧
      (_process_url max_depth robots resolve fetch persist target_url depth).persisted = false) ∧
    (∀ st h b, fetch = .response st h b → b.extracted = [] →
      (_process_url max_depth robots resolve fetch persist target_url depth).result = (0, []) ∧
      (_process_url max_depth robots resolve fetch persist target_url depth).persisted = false) ∧
    (∀ f, robots = some f → f (normalize_url target_url) = false →
      (_process_url max_depth robots resolve fetch persist target_url depth).result = (0, []) ∧
      (_process_url max_depth robots resolve fetch persist target_url depth).persisted = false) ∧
    (persist = .raises →
      (_process_url max_depth robots resolve fetch persist target_url depth).result = (0, []) ∧
      (_process_url max_depth robots resolve fetch persist target_url depth).persisted = false) := by
  refine ⟨?_, ?_, ?_, ?_, ?_, ?_, ?_⟩
  · unfold _process_url
    repeat' split
    all_goals try exact Or.inl ⟨rfl, rfl⟩
    all_goals exact Or.inr ⟨rfl, rfl⟩
  · intro hf
    subst hf
    unfold _process_url
    repeat' split
    all_goals try exact ⟨rfl, rfl⟩
    all_goals simp_all
  · intro st h b hf hst
    subst hf
    unfold _process_url
    repeat' split
    all_goals try exact ⟨rfl, rfl⟩
    all_goals simp_all
  · intro st h b hf hct
    subst hf
    unfold _process_url
    repeat' split
    all_goals try exact ⟨rfl, rfl⟩
    all_goals simp_all
  · intro st h b hf hex
    subst hf
    unfold _process_url
    repeat' split
    all_goals try exact ⟨rfl, rfl⟩
    all_goals simp_all
  · intro f hf hallow
    subst hf
    unfold _process_url
    repeat' split
    all_goals try exact ⟨rfl, rfl⟩
    all_goals simp_all [robotsDisallow]
  · intro hp
    subst hp
    unfold _process_url
    repeat' split
    all_goals try exact ⟨rfl, rfl⟩
    all_goals simp_all

/-- Witness for `process_url_failure_contract` at a concrete input. -/
theorem process_url_failure_contract_witness :
    (_process_url 3 none (fun _ href => href) .raises .ok ("http://a.com/x".toList) 0).result =
        (0, []) ∧
      (_process_url 3 none (fun _ href => href) .raises .ok
        ("http://a.com/x".toList) 0).persisted = false :=
  (process_url_failure_contract 3 none (fun _ href => href) .raises .ok
    ("http://a.com/x".toList) 0).2.1 rfl

/-- C6 counterexample: a 429 response whose `Retry-After` is an HTTP-date
(permitted by RFC 9110) makes `float(...)` raise `ValueError`, which the
broad `except` turns into `(0, [])` **without** calling
`throttle.backoff` — refuting the claim that every 429/503 response leads
to a `backoff` call. -/
theorem retry_after_nonnumeric_counterexample :
    (_process_url 3 none (fun _ href => href)
        (.response 429
          ⟨some ("Fri, 31 Dec 1999 23:59:59 GMT".toList), some ("text/html".toList)⟩
          ⟨"hello".toList, []⟩)
        .ok ("http://a.com/x".toList) 0).backoff_delay = none ∧
      (_process_url 3 none (fun _ href => href)
        (.response 429
          ⟨some ("Fri, 31 Dec 1999 23:59:59 GMT".toList), some ("text/html".toList)⟩
          ⟨"hello".toList, []⟩)
        .ok ("http://a.com/x".toList) 0).result = (0, []) := by
  constructor
  · rfl
  · rfl

theorem crawlStep_budget {c : CrawlConfig} {start_url : List Char} {st st' : OrchState}
    (h : CrawlStep c start_url st st')
    (hb : st.processed_pages + st.in_flight.length ≤ c.max_pages) :
    st'.processed_pages + st'.in_flight.length ≤ c.max_pages := by
  cases h with
  | fill_skip url depth rest v f pr sub hc hp hskip => exact hb
  | fill_submit url depth rest v f pr sub hc hp hnew hd hdom =>
    simp only [List.length_append, List.length_cons, List.length_nil]
    omega
  | complete q v f1 u d f2 pr sub p links hone =>
    simp only [List.length_append, List.length_cons] at hb ⊢
    omega

theorem crawlStep_submitted {c : CrawlConfig} {start_url : List Char} {st st' : OrchState}
    (h : CrawlStep c start_url st st')
    (hinv : st.submitted.Nodup ∧ ∀ u ∈ st.submitted, u ∈ st.visited) :
    st'.submitted.Nodup ∧ ∀ u ∈ st'.submitted, u ∈ st'.visited := by
  cases h with
  | fill_skip url depth rest v f pr sub hc hp hskip => exact hinv
  | fill_submit url depth rest v f pr sub hc hp hnew hd hdom =>
    refine ⟨List.nodup_cons.mpr ⟨fun hmem => hnew (hinv.2 _ hmem), hinv.1⟩, ?_⟩
    intro u hu
    rcases List.mem_cons.mp hu with h1 | h1
    · exact List.mem_cons.mpr (Or.inl h1)
    · exact List.mem_cons.mpr (Or.inr (hinv.2 _ h1))
  | complete q v f1 u d f2 pr sub p links hone => exact hinv

theorem crawlReach_budget {c : CrawlConfig} {start_url : List Char} {st : OrchState}
    (h : CrawlReach c start_url st) :
    st.processed_pages + st.in_flight.length ≤ c.max_pages := by
  induction h with
  | refl => simp [initState]
  | tail hab hbc ih => exact crawlStep_budget hbc ih

theorem crawlReach_submitted {c : CrawlConfig} {start_url : List Char} {st : OrchState}
    (h : CrawlReach c start_url st) :
    st.submitted.Nodup ∧ ∀ u ∈ st.submitted, u ∈ st.visited := by
  induction h with
  | refl => simp [initState]
  | tail hab hbc ih => exact crawlStep_submitted hbc ih

theorem process_url_result_le_one (md : Nat) (robots : Option (List Char → Bool))
    (resolve : List Char → List Char → List Char) (fetch : FetchOutcome)
    (persist : PersistOutcome) (u : List Char) (d : Nat) :
    (_process_url md robots resolve fetch persist u d).result.1 ≤ 1 := by
  unfold _process_url
  repeat' split
  all_goals simp

/-- C2: in every reachable state of the crawl loop,
`processed_pages + |in_flight|` stays within `max_pages` — the fill
phase only submits while that sum is strictly below the budget and
each worker contributes at most one processed page — so
`processed_pages` itself never exceeds `max_pages`; and the run on the
demo site (50 reachable, extractable pages, no failures,
`max_pages = 5`, `max_concurrency = 4`) processes exactly 5 pages. -/
theorem crawl_max_pages (c : CrawlConfig) (start_url : List Char) (st : OrchState)
    (h : CrawlReach c start_url st) :
    st.processed_pages + st.in_flight.length ≤ c.max_pages ∧
    st.processed_pages ≤ c.max_pages ∧
    (∀ md robots resolve fetch persist u d,
      (_process_url md robots resolve fetch persist u d).result.1 ≤ 1) ∧
    (crawl_project_run demoConfig demoWorker demoStart none 0 100).processed_pages =
      demoConfig.max_pages := by
  refine ⟨crawlReach_budget h, ?_, ?_, ?_⟩
  · have hb := crawlReach_budget h
    omega
  · intro md robots resolve fetch persist u d
    exact process_url_result_le_one md robots resolve fetch persist u d
  · decide

/-- Witness for `crawl_max_pages` at the initial state of the demo
crawl. -/
theorem crawl_max_pages_witness :
    (initState demoStart).processed_pages + (initState demoStart).in_flight.length ≤
        demoConfig.max_pages ∧
      (initState demoStart).processed_pages ≤ demoConfig.max_pages ∧
      (∀ md robots resolve fetch persist u d,
        (_process_url md robots resolve fetch persist u d).result.1 ≤ 1) ∧
      (crawl_project_run demoConfig demoWorker demoStart none 0 100).processed_pages =
        demoConfig.max_pages :=
  crawl_max_pages demoConfig demoStart (initState demoStart) Relation.ReflTransGen.refl

theorem crawlLoop_no_fault_ok (c : CrawlConfig)
    (W : List Char → Nat → Nat × List (List Char × Nat)) (start_url : List Char) :
    ∀ fuel iter st, (crawlLoop c W start_url none fuel iter st).1 = false := by
  intro fuel
  induction fuel with
  | zero => intro iter st; rfl
  | succ n ih =>
    intro iter st
    unfold crawlLoop
    split
    · split
      · simp_all
      · split
        · rfl
        · exact ih (iter + 1) _
    · rfl

/-- C4: whatever the loop does — any worker behaviour `W`, any injected
orchestrator fault, any fuel — `crawl_project_run` always reaches its
`finally` block and returns normally: the status ends as `FAILED`
exactly when an exception escaped the loop and as `DONE` otherwise (in
particular `DONE` whenever no fault occurs), `last_crawled_at` is
stamped unconditionally, and the HTTP client and worker pool are both
released. -/
theorem crawl_finalize_contract (c : CrawlConfig)
    (W : List Char → Nat → Nat × List (List Char × Nat)) (start_url : List Char)
    (fault : Option Nat) (now : Nat) (fuel : Nat) :
    ((crawl_project_run c W start_url fault now fuel).crawl_status = CrawlStatus.FAILED ∨
      (crawl_project_run c W start_url fault now fuel).crawl_status = CrawlStatus.DONE) ∧
    ((crawl_project_run c W start_url fault now fuel).crawl_status = CrawlStatus.FAILED ↔
      (crawlLoop c W start_url fault fuel 0 (initState start_url)).1 = true) ∧
    (fault = none →
      (crawl_project_run c W start_url fault now fuel).crawl_status = CrawlStatus.DONE) ∧
    (crawl_project_run c W start_url fault now fuel).last_crawled_at = some now ∧
    (crawl_project_run c W start_url fault now fuel).client_closed = true ∧
    (crawl_project_run c W start_url fault now fuel).executor_shutdown = true := by
  unfold crawl_project_run
  refine ⟨?_, ?_, ?_, ?_, ?_, ?_⟩
  · rcases hr : crawlLoop c W start_url fault fuel 0 (initState start_url) with ⟨failed, pr⟩
    cases failed with
    | false => exact Or.inr rfl
    | true => exact Or.inl rfl
  · rcases hr : crawlLoop c W start_url fault fuel 0 (initState start_url) with ⟨failed, pr⟩
    cases failed with
    | false => simp
    | true => simp
  · intro hf
    subst hf
    rcases hr : crawlLoop c W start_url none fuel 0 (initState start_url) with ⟨failed, pr⟩
    have := crawlLoop_no_fault_ok c W start_url fuel 0 (initState start_url)
    rw [hr] at this
    simp only at this
    subst this
    rfl
  · rcases hr : crawlLoop c W start_url fault fuel 0 (initState start_url) with ⟨failed, pr⟩
    rfl
  · rcases hr : crawlLoop c W start_url fault fuel 0 (initState start_url) with ⟨failed, pr⟩
    rfl
  · rcases hr : crawlLoop c W start_url fault fuel 0 (initState start_url) with ⟨failed, pr⟩
    rfl

/-- Witness for `crawl_finalize_contract` on a fault-free demo run. -/
theorem crawl_finalize_contract_witness :
    (crawl_project_run demoConfig demoWorker demoStart none 0 3).last_crawled_at = some 0 ∧
      (crawl_project_run demoConfig demoWorker demoStart none 0 3).crawl_status =
        CrawlStatus.DONE :=
  ⟨(crawl_finalize_contract demoConfig demoWorker demoStart none 0 3).2.2.2.1,
   (crawl_finalize_contract demoConfig demoWorker demoStart none 0 3).2.2.1 rfl⟩

/-- C6 (amended): on a 429/503 response reaching the fetch (robots does
not block the URL), the worker returns `(0, [])` and persists nothing;
the backoff depends on the `Retry-After` header: absent → backoff 5
seconds, present and parseable as a Python float → backoff that value,
present but not float-parseable (e.g. an RFC 9110 HTTP-date) →
`float(...)` raises and the broad `except` returns `(0, [])` with NO
backoff call.  Moreover the orchestrator never hands the same
normalized URL to a worker twice in a run (`submitted` stays
duplicate-free in every reachable state), so the URL is not retried
within the run. -/
theorem retry_after_backoff (md : Nat) (robots : Option (List Char → Bool))
    (resolve : List Char → List Char → List Char) (persist : PersistOutcome)
    (u : List Char) (d : Nat) (st : Nat) (h : RespHeaders) (b : PageBody)
    (c : CrawlConfig) (start_url : List Char) (s : OrchState)
    (hrob : robotsDisallow robots u = false) (hst : st = 429 ∨ st = 503)
    (hreach : CrawlReach c start_url s) :
    ((_process_url md robots resolve (.response st h b) persist u d).result = (0, []) ∧
      (_process_url md robots resolve (.response st h b) persist u d).persisted = false) ∧
    (h.retry_after = none →
      (_process_url md robots resolve (.response st h b) persist u d).backoff_delay = some 5) ∧
    (∀ ra dl, h.retry_after = some ra → pyFloat? ra = some dl →
      (_process_url md robots resolve (.response st h b) persist u d).backoff_delay = some dl) ∧
    (∀ ra, h.retry_after = some ra → pyFloat? ra = none →
      (_process_url md robots resolve (.response st h b) persist u d).backoff_delay = none) ∧
    s.submitted.Nodup := by
  refine ⟨?_, ?_, ?_, ?_, (crawlReach_submitted hreach).1⟩
  · unfold _process_url
    repeat' split
    all_goals try exact ⟨rfl, rfl⟩
    all_goals simp_all
  · intro hra
    unfold _process_url
    repeat' split
    all_goals simp_all
  · intro ra dl hra hpf
    unfold _process_url
    repeat' split
    all_goals simp_all
  · intro ra hra hpf
    unfold _process_url
    repeat' split
    all_goals simp_all

/-- Witness for `retry_after_backoff`: a 429 with no `Retry-After`
header at the initial orchestrator state. -/
theorem retry_after_backoff_witness :
    robotsDisallow none ("http://a.com/x".toList) = false ∧
      ((429 : Nat) = 429 ∨ (429 : Nat) = 503) ∧
      (_process_url 3 none (fun _ href => href)
          (.response 429 ⟨none, some ("text/html".toList)⟩ ⟨"hello".toList, []⟩)
          .ok ("http://a.com/x".toList) 0).result = (0, []) ∧
      (_process_url 3 none (fun _ href => href)
          (.response 429 ⟨none, some ("text/html".toList)⟩ ⟨"hello".toList, []⟩)
          .ok ("http://a.com/x".toList) 0).backoff_delay = some 5 ∧
      (initState demoStart).submitted.Nodup :=
  ⟨rfl, Or.inl rfl,
    (retry_after_backoff 3 none (fun _ href => href) .ok ("http://a.com/x".toList) 0 429
      ⟨none, some ("text/html".toList)⟩ ⟨"hello".toList, []⟩ demoConfig demoStart
      (initState demoStart) rfl (Or.inl rfl) Relation.ReflTransGen.refl).1.1,
    (retry_after_backoff 3 none (fun _ href => href) .ok ("http://a.com/x".toList) 0 429
      ⟨none, some ("text/html".toList)⟩ ⟨"hello".toList, []⟩ demoConfig demoStart
      (initState demoStart) rfl (Or.inl rfl) Relation.ReflTransGen.refl).2.1 rfl,
    (retry_after_backoff 3 none (fun _ href => href) .ok ("http://a.com/x".toList) 0 429
      ⟨none, some ("text/html".toList)⟩ ⟨"hello".toList, []⟩ demoConfig demoStart
      (initState demoStart) rfl (Or.inl rfl) Relation.ReflTransGen.refl).2.2.2.2⟩

theorem filter_filter_not {α : Type} (p : α → Bool) (l : List α) :
    (l.filter (fun a => !p a)).filter p = [] := by
  induction l with
  | nil => rfl
  | cons x xs ih =>
    cases hp : p x with
    | false => simp [List.filter_cons, hp, ih]
    | true => simp [List.filter_cons, hp, ih]

theorem workerPersist_documents (embed : List (List Char) → List (List Rat))
    (db : WorkerDb) (project_id : Nat) (normalized raw_content : List Char) (new_id : Nat) :
    (workerPersist embed db project_id normalized raw_content new_id).documents =
      db.documents.filter (fun d => !matchesCrawled project_id normalized d) ++
        [⟨new_id, project_id, DocumentSourceType.CRAWLED_PAGE, normalized, raw_content⟩] := by
  unfold workerPersist index_document_chunks
  split
  · rfl
  · rfl

theorem workerPersist_chunks_mem (embed : List (List Char) → List (List Rat))
    (db : WorkerDb) (project_id : Nat) (normalized raw_content : List Char) (new_id : Nat) :
    ∀ ch ∈ (workerPersist embed db project_id normalized raw_content new_id).chunks,
      ch ∈ (_delete_existing_document db project_id normalized).chunks ∨
        ch ∈ chunkRowsFor embed project_id
          ⟨new_id, project_id, DocumentSourceType.CRAWLED_PAGE, normalized, raw_content⟩ := by
  intro ch hmem
  unfold workerPersist index_document_chunks at hmem
  split at hmem
  · exact Or.inl hmem
  · simp only [List.mem_append] at hmem
    exact hmem

/-- C3: after a worker successfully persists a (re-)crawl of a
normalized URL under a fresh document id, exactly one `CRAWLED_PAGE`
document with that `project_id` and `url_or_name` remains — the freshly
inserted one — and no chunk row still references any of the previously
matching documents (their chunks were cascade-deleted before the
insert, all within the one worker session). -/
theorem recrawl_dedup (embed : List (List Char) → List (List Rat)) (db : WorkerDb)
    (project_id : Nat) (normalized raw_content : List Char) (new_id : Nat)
    (hfresh : ∀ d ∈ db.documents, d.id ≠ new_id) :
    ((workerPersist embed db project_id normalized raw_content new_id).documents.filter
        (fun d => matchesCrawled project_id normalized d)).length = 1 ∧
    (∀ d ∈ (workerPersist embed db project_id normalized raw_content new_id).documents,
      matchesCrawled project_id normalized d = true → d.id = new_id) ∧
    (∀ ch ∈ (workerPersist embed db project_id normalized raw_content new_id).chunks,
      ∀ d ∈ db.documents, matchesCrawled project_id normalized d = true →
        ch.document_id ≠ d.id) := by
  refine ⟨?_, ?_, ?_⟩
  · rw [workerPersist_documents, List.filter_append, filter_filter_not]
    simp [matchesCrawled]
  · intro d hd hmatch
    rw [workerPersist_documents] at hd
    rcases List.mem_append.mp hd with h1 | h1
    · have := (List.mem_filter.mp h1).2
      rw [hmatch] at this
      simp at this
    · rw [List.mem_singleton] at h1
      subst h1
      rfl
  · intro ch hch d hd hmatch
    rcases workerPersist_chunks_mem embed db project_id normalized raw_content new_id ch hch
      with h1 | h1
    · have hkeep := (List.mem_filter.mp h1).2
      simp only [Bool.not_eq_true', decide_eq_false_iff_not] at hkeep
      intro heq
      exact hkeep (List.mem_map.mpr ⟨d, List.mem_filter.mpr ⟨hd, hmatch⟩, heq.symm⟩)
    · rcases List.mem_map.mp h1 with ⟨p, hp, hpe⟩
      have hid : ch.document_id = new_id := by rw [← hpe]
      rw [hid]
      exact fun heq => hfresh d hd heq.symm

/-- Witness for `recrawl_dedup`: re-crawl of the URL in `staleDb` under
fresh id 2. -/
theorem recrawl_dedup_witness :
    (∀ d ∈ staleDb.documents, d.id ≠ 2) ∧
    ((workerPersist (fun ts => ts.map fun _ => [0]) staleDb
        7 ("http://a.com/x".toList) ("new".toList) 2).documents.filter
      (fun d => matchesCrawled 7 ("http://a.com/x".toList) d)).length = 1 := by
  constructor
  · decide
  · exact (recrawl_dedup (fun ts => ts.map fun _ => [0]) staleDb
      7 ("http://a.com/x".toList) ("new".toList) 2 (by decide)).1

theorem split_into_chunks_ne_nil (text : List Char) (max_chars : Nat) :
    split_into_chunks text max_chars ≠ [] := by
  unfold split_into_chunks
  split
  · simp
  · assumption

/-- C9: `split_into_chunks` never returns an empty list (`return chunks
or [text]` falls back to the single chunk `[text]`), so the indexer's
`if not chunks: return` branch is unreachable — `index_document_chunks`
always takes the embedding path; in particular a document whose
`raw_content` is empty still sends the single empty string to the
embedding provider and persists exactly one Chunk row with empty
content. -/
theorem chunker_nonempty_and_empty_indexing (text : List Char) (max_chars : Nat)
    (embed : List (List Char) → List (List Rat)) (db : WorkerDb) (project_id : Nat)
    (document : Document) (e : List Rat)
    (hraw : document.raw_content = []) (hemb : embed [[]] = [e]) :
    split_into_chunks text max_chars ≠ [] ∧
    index_document_chunks embed db project_id document =
      { documents := db.documents,
        chunks := db.chunks ++ chunkRowsFor embed project_id document } ∧
    index_document_chunks embed db project_id document =
      { documents := db.documents,
        chunks := db.chunks ++ [⟨project_id, document.id, [], e⟩] } := by
  have halways : index_document_chunks embed db project_id document =
      { documents := db.documents,
        chunks := db.chunks ++ chunkRowsFor embed project_id document } := by
    unfold index_document_chunks
    split
    · exact absurd (by assumption) (split_into_chunks_ne_nil document.raw_content 3500)
    · rfl
  refine ⟨split_into_chunks_ne_nil text max_chars, halways, ?_⟩
  rw [halways]
  unfold chunkRowsFor
  rw [hraw]
  have hs : split_into_chunks ([] : List Char) 3500 = [[]] := by decide
  rw [hs, hemb]
  rfl

/-- Witness for `chunker_nonempty_and_empty_indexing`: indexing an
empty document into an empty session. -/
theorem chunker_nonempty_and_empty_indexing_witness :
    split_into_chunks ("hi".toList) 5 ≠ [] ∧
    index_document_chunks (fun ts => ts.map fun _ => [(0 : Rat)]) ⟨[], []⟩ 7
        ⟨3, 7, DocumentSourceType.CRAWLED_PAGE, "u".toList, []⟩ =
      ⟨[], [⟨7, 3, ([] : List Char), [(0 : Rat)]⟩]⟩ :=
  ⟨(chunker_nonempty_and_empty_indexing ("hi".toList) 5 (fun ts => ts.map fun _ => [(0 : Rat)])
      ⟨[], []⟩ 7 ⟨3, 7, DocumentSourceType.CRAWLED_PAGE, "u".toList, []⟩ [(0 : Rat)]
      rfl rfl).1,
   by
    rw [(chunker_nonempty_and_empty_indexing ("hi".toList) 5
      (fun ts => ts.map fun _ => [(0 : Rat)])
      ⟨[], []⟩ 7 ⟨3, 7, DocumentSourceType.CRAWLED_PAGE, "u".toList, []⟩ [(0 : Rat)]
      rfl rfl).2.2]
    rfl⟩

theorem updatedDesc_trans (a b c : RagChunk) :
    updatedDesc a b = true → updatedDesc b c = true → updatedDesc a c = true := by
  simp only [updatedDesc, decide_eq_true_eq]
  omega

theorem updatedDesc_total (a b : RagChunk) : (updatedDesc a b || updatedDesc b a) = true := by
  simp only [updatedDesc, Bool.or_eq_true, decide_eq_true_eq]
  exact Nat.le_total b.updated_at a.updated_at

theorem scoreDesc_trans (a b c : Rat × RagChunk) :
    scoreDesc a b = true → scoreDesc b c = true → scoreDesc a c = true := by
  simp only [scoreDesc, decide_eq_true_eq]
  intro h1 h2
  exact le_trans h2 h1

theorem scoreDesc_total (a b : Rat × RagChunk) : (scoreDesc a b || scoreDesc b a) = true := by
  simp only [scoreDesc, Bool.or_eq_true, decide_eq_true_eq]
  exact le_total b.1 a.1

/-- C8: the candidate pool holds at most `max(limit*20, 200)` chunks,
all from the requested project, in non-increasing `updated_at` order
(the recency-biased bounded pool); the returned list holds at most
`limit` chunks and is in non-increasing cosine-similarity order against
the query embedding. -/
theorem fetch_relevant_chunks_spec (sqrtF : Rat → Rat) (db : List RagChunk)
    (project_id : Nat) (embedding : List Rat) (limit : Nat) :
    (rag_candidates db project_id limit).length ≤ max (limit * 20) 200 ∧
    (∀ ch ∈ rag_candidates db project_id limit, ch.project_id = project_id) ∧
    (rag_candidates db project_id limit).Pairwise
      (fun a b => b.updated_at ≤ a.updated_at) ∧
    (fetch_relevant_chunks sqrtF db project_id embedding limit).length ≤ limit ∧
    (fetch_relevant_chunks sqrtF db project_id embedding limit).Pairwise
      (fun a b => _cosine_similarity sqrtF b.embedding embedding ≤
        _cosine_similarity sqrtF a.embedding embedding) := by
  refine ⟨?_, ?_, ?_, ?_, ?_⟩
  · unfold rag_candidates
    rw [List.length_take]
    exact inf_le_left
  · intro ch hch
    unfold rag_candidates at hch
    have h2 := (List.take_sublist _ _).subset hch
    have h3 := (List.mergeSort_perm _ updatedDesc).mem_iff.mp h2
    have h4 := (List.mem_filter.mp h3).2
    exact of_decide_eq_true h4
  · unfold rag_candidates
    refine List.Pairwise.imp ?_
      (List.Pairwise.sublist (List.take_sublist _ _)
        (List.sorted_mergeSort updatedDesc_trans updatedDesc_total _))
    intro a b hab
    exact of_decide_eq_true hab
  · unfold fetch_relevant_chunks
    rw [List.length_map, List.length_take]
    exact inf_le_left
  · unfold fetch_relevant_chunks
    rw [List.pairwise_map]
    have hscore : ∀ p ∈ (((rag_candidates db project_id limit).map
        (fun ch => (_cosine_similarity sqrtF ch.embedding embedding, ch))).mergeSort
        scoreDesc).take limit,
        p.1 = _cosine_similarity sqrtF p.2.embedding embedding := by
      intro p hp
      have hp2 := (List.take_sublist _ _).subset hp
      have hp3 := (List.mergeSort_perm _ scoreDesc).mem_iff.mp hp2
      rcases List.mem_map.mp hp3 with ⟨ch, hch, hpe⟩
      rw [← hpe]
    refine List.Pairwise.imp_of_mem ?_
      (List.Pairwise.sublist (List.take_sublist _ _)
        (List.sorted_mergeSort scoreDesc_trans scoreDesc_total _))
    intro a b ha hb hab
    have h1 := of_decide_eq_true hab
    rw [hscore a ha, hscore b hb] at h1
    exact h1

/-- Witness for `fetch_relevant_chunks_spec` at a concrete query. -/
theorem fetch_relevant_chunks_spec_witness :
    (fetch_relevant_chunks (fun x => x) [⟨1, 0, [1]⟩] 1 [1] 8).length ≤ 8 ∧
      ∀ ch ∈ rag_candidates [⟨1, 0, [1]⟩] 1 8, ch.project_id = 1 :=
  ⟨(fetch_relevant_chunks_spec (fun x => x) [⟨1, 0, [1]⟩] 1 [1] 8).2.2.2.1,
   (fetch_relevant_chunks_spec (fun x => x) [⟨1, 0, [1]⟩] 1 [1] 8).2.1⟩

end Smartbot
